import Mathlib

set_option maxHeartbeats 1000000

/-! Shallow embedding of the core of the tick-based matching engine
    (repository `matching-engine`): the bitmap index
    (`src/shared/collections/fast_bitmap.rs`), the price-level ring buffer
    (`src/shared/collections/ringbuffer.rs`) and the order book
    (`src/domain/orderbook/tick_based.rs`), together with theorems settling
    the specification claims.

    Machine integers (`u64`, `usize`) are modelled as `Nat`.  All `u64`
    arithmetic performed by the embedded code stays below `2 ^ 64` except
    the shift `1u64 << (start_bit + 1)` in `FastBitmap::find_prev_one`,
    whose overflow (hit exactly when `start % 64 = 0`) is modelled
    explicitly: `FastBitmap.findPrevOneChecked` models the debug-build
    panic, `FastBitmap.findPrevOne` the release-build masking of the shift
    amount. -/

/-- The modulus of Rust `u64`: `2 ^ 64`. -/
def u64Size : Nat := 18446744073709551616

/-- Rust `u64::MAX`, i.e. `2 ^ 64 - 1`. -/
def u64AllOnes : Nat := u64Size - 1

/-- Bitwise complement on a 64-bit word: Rust `!x` for `x : u64`. -/
def u64Compl (x : Nat) : Nat := u64AllOnes ^^^ x

/-- Fuel-bounded count of trailing zero bits (helper for `ctz64`). -/
def ctzFuel : Nat → Nat → Nat
  | 0, _ => 0
  | fuel + 1, b => if b % 2 = 1 then 0 else 1 + ctzFuel fuel (b / 2)

/-- Rust `u64::trailing_zeros` for values `< 2 ^ 64`: the index of the least
    significant set bit, and `64` when the value is zero. -/
def ctz64 (b : Nat) : Nat := ctzFuel 64 b

/-- Fuel-bounded base-2 logarithm (helper for `clz64`); for `b < 2 ^ 64`
    sixty-four steps of fuel make it the floor of `log2 b`, the index of
    the most significant set bit. -/
def msbFuel : Nat → Nat → Nat
  | 0, _ => 0
  | fuel + 1, b => if b ≥ 2 then msbFuel fuel (b / 2) + 1 else 0

/-- Rust `u64::leading_zeros` for values `< 2 ^ 64`: `63 - log2 b` for
    nonzero `b` and `64` for zero.  The sources only ever use it through the
    combination `63 - leading_zeros b` on a nonzero word, which equals
    `log2 b`, the index of the most significant set bit. -/
def clz64 (b : Nat) : Nat := if b = 0 then 64 else 63 - msbFuel 64 b

/-- `FastBitmap` (fast_bitmap.rs, lines 16-22): a `Vec<u64>` of blocks, each
    holding 64 bits, plus the total number of bits. -/
structure FastBitmap where
  blocks : List Nat
  len : Nat
deriving Repr, DecidableEq

/-- `FastBitmap::new(len)` (fast_bitmap.rs, lines 29-35): `⌈len/64⌉` zero
    blocks. -/
def FastBitmap.new (len : Nat) : FastBitmap :=
  { blocks := List.replicate ((len + 63) / 64) 0, len := len }

/-- `FastBitmap::set(index, value)` (fast_bitmap.rs, lines 43-56).  The
    source (after a `debug_assert` that `index < len`) indexes
    `blocks[index / 64]`; an out-of-bounds index, which would panic in Rust,
    is modelled as a no-op (`List.set` out of range) - every call site in
    the embedded book passes an in-range index. -/
def FastBitmap.set (bm : FastBitmap) (index : Nat) (value : Bool) : FastBitmap :=
  let blockIdx := index / 64
  let bitOffset := index % 64
  let old := (bm.blocks.get? blockIdx).getD 0
  match value with
  | true =>
    { bm with blocks := bm.blocks.set blockIdx (old ||| (1 <<< bitOffset)) }
  | false =>
    { bm with blocks := bm.blocks.set blockIdx (old &&& u64Compl (1 <<< bitOffset)) }

/-- `FastBitmap::get(index)` (fast_bitmap.rs, lines 60-67). -/
def FastBitmap.get (bm : FastBitmap) (index : Nat) : Bool :=
  ((bm.blocks.get? (index / 64)).getD 0 &&& (1 <<< (index % 64))) != 0

/-- A list paired with indices starting at `i`: Rust's
    `iter().enumerate()` (with a starting offset, used to model scans that
    begin at a later block). -/
def withIdxFrom {α : Type} : Nat → List α → List (Nat × α)
  | _, [] => []
  | i, a :: rest => (i, a) :: withIdxFrom (i + 1) rest

/-- The block scan of `FastBitmap::find_first_one` (fast_bitmap.rs, lines
    120-136): low-to-high over the blocks (the first argument are the blocks
    from block index `blockIdx` upward); inside the first nonzero block the
    hardware `trailing_zeros` locates the lowest set bit, and the source
    checks `index < self.len` before returning. -/
def findFirstOneAux : List Nat → Nat → Nat → Option Nat
  | [], _, _ => none
  | b :: rest, blockIdx, len =>
    if b ≠ 0 then
      let index := blockIdx * 64 + ctz64 b
      if index < len then some index else findFirstOneAux rest (blockIdx + 1) len
    else findFirstOneAux rest (blockIdx + 1) len

/-- `FastBitmap::find_first_one()` (fast_bitmap.rs, lines 120-136). -/
def FastBitmap.findFirstOne (bm : FastBitmap) : Option Nat :=
  findFirstOneAux bm.blocks 0 bm.len

/-- The block scan of `FastBitmap::find_last_one` (fast_bitmap.rs, lines
    85-102): high-to-low over the enumerated blocks; inside the first
    nonzero block `63 - leading_zeros` locates the highest set bit, and the
    source checks `index < self.len` before returning. -/
def findLastOneAux : List (Nat × Nat) → Nat → Option Nat
  | [], _ => none
  | (blockIdx, b) :: rest, len =>
    if b ≠ 0 then
      let index := blockIdx * 64 + (63 - clz64 b)
      if index < len then some index else findLastOneAux rest len
    else findLastOneAux rest len

/-- `FastBitmap::find_last_one()` (fast_bitmap.rs, lines 85-102). -/
def FastBitmap.findLastOne (bm : FastBitmap) : Option Nat :=
  findLastOneAux (withIdxFrom 0 bm.blocks).reverse bm.len

/-- `FastBitmap::find_next_one(start)` (fast_bitmap.rs, lines 147-182).
    When `start_bit > 0` the current block is masked to keep only the bits
    at positions `≥ start_bit`; afterwards - and, notably, also when
    `start_bit = 0`, i.e. when `start + 1` is a multiple of 64 - only the
    blocks strictly after `start_block` are scanned, exactly as in the
    source's `for block_idx in (start_block + 1)..self.blocks.len()`. -/
def findNextStartBlock (bm : FastBitmap) (start : Nat) : Option Nat :=
  let nextIndex := start + 1
  let startBlock := nextIndex / 64
  let startBit := nextIndex % 64
  if startBit > 0 then
    let mask := u64Compl ((1 <<< startBit) - 1)
    let masked := (bm.blocks.get? startBlock).getD 0 &&& mask
    if masked ≠ 0 then
      let index := startBlock * 64 + ctz64 masked
      if index < bm.len then some index else none
    else none
  else none

/-- `FastBitmap::find_next_one(start)`, continued: the result is the masked
    probe of the start block when that yields an in-range index, and
    otherwise the low-to-high scan of the strictly later blocks. -/
def FastBitmap.findNextOne (bm : FastBitmap) (start : Nat) : Option Nat :=
  if start + 1 ≥ bm.len then none
  else
    let startBlock := (start + 1) / 64
    match findNextStartBlock bm start with
    | some index => some index
    | none => findFirstOneAux (bm.blocks.drop (startBlock + 1)) (startBlock + 1) bm.len

/-- The trailing block scan of `FastBitmap::find_prev_one` (fast_bitmap.rs,
    lines 211-217): high-to-low over the blocks strictly below the start
    block; the source performs no `index < len` check here. -/
def findPrevBlocksAux : List (Nat × Nat) → Option Nat
  | [] => none
  | (blockIdx, b) :: rest =>
    if b ≠ 0 then some (blockIdx * 64 + (63 - clz64 b))
    else findPrevBlocksAux rest

/-- `FastBitmap::find_prev_one(start)` (fast_bitmap.rs, lines 193-220) under
    Rust release semantics: the mask is `(1u64 << (start_bit + 1)) - 1`, and
    when `start_bit = 63` (that is, when `start` is a nonzero multiple of
    64) the overflowing shift amount `64` is masked to `0`, so the mask
    degenerates to `0` and the whole start block is skipped.  Debug builds
    panic instead; see `FastBitmap.findPrevOneChecked`. -/
def FastBitmap.findPrevOne (bm : FastBitmap) (start : Nat) : Option Nat :=
  if start = 0 then none
  else
    let prevIndex := start - 1
    let startBlock := prevIndex / 64
    let startBit := prevIndex % 64
    let mask := (1 <<< ((startBit + 1) % 64)) - 1
    let masked := (bm.blocks.get? startBlock).getD 0 &&& mask
    if masked ≠ 0 then some (startBlock * 64 + (63 - clz64 masked))
    else findPrevBlocksAux (withIdxFrom 0 (bm.blocks.take startBlock)).reverse

/-- `FastBitmap::find_prev_one(start)` under Rust debug semantics: the outer
    `none` models the arithmetic-overflow panic of `1u64 << (start_bit + 1)`
    when `start_bit = 63`; `some r` is a normal return with result `r`. -/
def FastBitmap.findPrevOneChecked (bm : FastBitmap) (start : Nat) :
    Option (Option Nat) :=
  if start = 0 then some none
  else
    let prevIndex := start - 1
    let startBlock := prevIndex / 64
    let startBit := prevIndex % 64
    if startBit + 1 ≥ 64 then none
    else
      let mask := (1 <<< (startBit + 1)) - 1
      let masked := (bm.blocks.get? startBlock).getD 0 &&& mask
      if masked ≠ 0 then some (some (startBlock * 64 + (63 - clz64 masked)))
      else some (findPrevBlocksAux (withIdxFrom 0 (bm.blocks.take startBlock)).reverse)

/-! Lemmas about the bit primitives, used for the termination and the
    behaviour of the matching walks. -/

theorem ctzFuel_ge (k : Nat) : ∀ (fuel b : Nat), k ≤ fuel →
    (∀ j, j < k → b.testBit j = false) → k ≤ ctzFuel fuel b := by
  induction k with
  | zero => intro fuel b _ _; exact Nat.zero_le _
  | succ k ih =>
    intro fuel b hfuel hbits
    match fuel, hfuel with
    | fuel + 1, hfuel =>
      have h0 : b.testBit 0 = false := hbits 0 (Nat.succ_pos k)
      have hb2 : ¬ b % 2 = 1 := by
        simpa [Nat.testBit_zero] using h0
      have hrec : k ≤ ctzFuel fuel (b / 2) := by
        refine ih fuel (b / 2) (Nat.le_of_succ_le_succ hfuel) ?_
        intro j hj
        have := hbits (j + 1) (Nat.succ_lt_succ hj)
        simpa [Nat.testBit_succ] using this
      simp only [ctzFuel, hb2, if_false]
      omega

theorem testBit_nextMask_lo {startBit j : Nat} (hsb : startBit ≤ 63)
    (hj : j < startBit) : (u64Compl ((1 <<< startBit) - 1)).testBit j = false := by
  have h1 : (1 : Nat) <<< startBit = 2 ^ startBit := Nat.one_shiftLeft _
  have h64 : u64AllOnes = 2 ^ 64 - 1 := by norm_num [u64AllOnes, u64Size]
  rw [u64Compl, h1, h64, Nat.testBit_xor, Nat.testBit_two_pow_sub_one,
    Nat.testBit_two_pow_sub_one]
  have hj64 : j < 64 := by omega
  simp [hj, hj64]

theorem ctz64_masked_ge {blk startBit : Nat} (hsb : startBit ≤ 63) :
    startBit ≤ ctz64 (blk &&& u64Compl ((1 <<< startBit) - 1)) := by
  refine ctzFuel_ge startBit 64 _ (by omega) ?_
  intro j hj
  rw [Nat.testBit_land, testBit_nextMask_lo hsb hj, Bool.and_false]

theorem findFirstOneAux_some {l : List Nat} : ∀ {blockIdx len i : Nat},
    findFirstOneAux l blockIdx len = some i → i < len ∧ blockIdx * 64 ≤ i := by
  induction l with
  | nil => intro blockIdx len i h; simp [findFirstOneAux] at h
  | cons b rest ih =>
    intro blockIdx len i h
    simp only [findFirstOneAux] at h
    split at h
    · split at h
      · rename_i hlt
        rw [Option.some.injEq] at h
        subst h
        exact ⟨hlt, Nat.le_add_right _ _⟩
      · have := ih h
        omega
    · have := ih h
      omega

theorem sixtythree_sub_clz64_le (b : Nat) : 63 - clz64 b ≤ 63 := by
  unfold clz64
  split <;> omega

theorem msbFuel_lt : ∀ (fuel k b : Nat), b < 2 ^ k → 0 < k →
    msbFuel fuel b < k := by
  intro fuel
  induction fuel with
  | zero =>
    intro k b _ hk
    simpa [msbFuel] using hk
  | succ fuel ih =>
    intro k b hb hk
    unfold msbFuel
    split
    · rename_i h2
      have hk2 : 2 ≤ k := by
        by_contra hc
        have : k = 1 := by omega
        subst this
        simp at hb
        omega
      have hdiv : b / 2 < 2 ^ (k - 1) := by
        have : 2 ^ k = 2 ^ (k - 1) * 2 := by
          rw [← Nat.pow_succ]
          congr 1
          omega
        omega
      have := ih (k - 1) (b / 2) hdiv (by omega)
      omega
    · omega

theorem sixtythree_sub_clz64_lt {b bound : Nat} (hb : b ≠ 0)
    (hlt : b < 2 ^ (bound + 1)) (_hbound : bound ≤ 63) : 63 - clz64 b ≤ bound := by
  have hlog : msbFuel 64 b < bound + 1 := msbFuel_lt 64 (bound + 1) b hlt (by omega)
  unfold clz64
  simp only [hb, if_false]
  omega

theorem findNextStartBlock_some {bm : FastBitmap} {start i : Nat}
    (h : findNextStartBlock bm start = some i) : start < i ∧ i < bm.len := by
  unfold findNextStartBlock at h
  simp only at h
  set nextIndex := start + 1 with hnext
  set startBlock := nextIndex / 64 with hsb
  set startBit := nextIndex % 64 with hsbit
  have hdm : startBlock * 64 + startBit = nextIndex := by
    rw [hsb, hsbit, Nat.mul_comm]
    exact Nat.div_add_mod nextIndex 64
  have hsbit63 : startBit ≤ 63 := by
    have : nextIndex % 64 < 64 := Nat.mod_lt _ (by norm_num)
    omega
  split at h
  · split at h
    · split at h
      · rename_i hlen
        rw [Option.some.injEq] at h
        subst h
        refine ⟨?_, hlen⟩
        have := @ctz64_masked_ge ((bm.blocks.get? startBlock).getD 0)
          startBit hsbit63
        omega
      · exact absurd h (by simp)
    · exact absurd h (by simp)
  · exact absurd h (by simp)

theorem findNextOne_some {bm : FastBitmap} {start i : Nat}
    (h : bm.findNextOne start = some i) : start < i ∧ i < bm.len := by
  unfold FastBitmap.findNextOne at h
  by_cases hge : start + 1 ≥ bm.len
  · simp [hge] at h
  · simp only [hge, if_false] at h
    have hsbit63 : (start + 1) % 64 ≤ 63 := by
      have : (start + 1) % 64 < 64 := Nat.mod_lt _ (by norm_num)
      omega
    have hdm : (start + 1) / 64 * 64 + (start + 1) % 64 = start + 1 := by
      rw [Nat.mul_comm]
      exact Nat.div_add_mod (start + 1) 64
    cases hfsb : findNextStartBlock bm start with
    | some j =>
      rw [hfsb] at h
      simp only [Option.some.injEq] at h
      subst h
      exact findNextStartBlock_some hfsb
    | none =>
      rw [hfsb] at h
      simp only at h
      have := findFirstOneAux_some h
      omega

theorem withIdxFrom_mem {α : Type} {p : Nat × α} :
    ∀ {i : Nat} {l : List α}, p ∈ withIdxFrom i l → i ≤ p.1 ∧ p.1 < i + l.length := by
  intro i l
  induction l generalizing i with
  | nil => intro h; simp [withIdxFrom] at h
  | cons a rest ih =>
    intro h
    simp only [withIdxFrom, List.mem_cons] at h
    rcases h with h | h
    · subst h; simp
    · have := ih h
      simp only [List.length_cons]
      omega

theorem findPrevBlocksAux_some {l : List (Nat × Nat)} {i bound : Nat}
    (hmem : ∀ p ∈ l, p.1 < bound) (h : findPrevBlocksAux l = some i) :
    i < bound * 64 := by
  induction l with
  | nil => simp [findPrevBlocksAux] at h
  | cons p rest ih =>
    match p with
    | (blockIdx, b) =>
      simp only [findPrevBlocksAux] at h
      split at h
      · rw [Option.some.injEq] at h
        subst h
        have hp : blockIdx < bound := hmem _ (List.mem_cons_self _ _)
        have := sixtythree_sub_clz64_le b
        calc blockIdx * 64 + (63 - clz64 b) ≤ blockIdx * 64 + 63 := by omega
          _ < (blockIdx + 1) * 64 := by omega
          _ ≤ bound * 64 := Nat.mul_le_mul_right _ hp
      · exact ih (fun q hq => hmem q (List.mem_cons_of_mem _ hq)) h

theorem findPrevOne_some {bm : FastBitmap} {start i : Nat}
    (h : bm.findPrevOne start = some i) : i < start := by
  unfold FastBitmap.findPrevOne at h
  by_cases h0 : start = 0
  · simp [h0] at h
  · simp only [h0, if_false] at h
    set prevIndex := start - 1 with hprev
    set startBlock := prevIndex / 64 with hsb
    set startBit := prevIndex % 64 with hsbit
    have hdm : startBlock * 64 + startBit = prevIndex := by
      rw [hsb, hsbit, Nat.mul_comm]
      exact Nat.div_add_mod prevIndex 64
    have hsbit63 : startBit ≤ 63 := by
      have : prevIndex % 64 < 64 := Nat.mod_lt _ (by norm_num)
      omega
    set masked := (bm.blocks.get? startBlock).getD 0 &&&
      ((1 <<< ((startBit + 1) % 64)) - 1) with hmasked
    split at h
    · rename_i hm0
      rw [Option.some.injEq] at h
      subst h
      by_cases h63 : startBit = 63
      · exfalso
        apply hm0
        rw [hmasked, h63]
        norm_num
      · have hmlt : masked < 2 ^ (startBit + 1) := by
          have hle : masked ≤ (1 <<< ((startBit + 1) % 64)) - 1 := by
            rw [hmasked]
            exact Nat.and_le_right
          have hmod : (startBit + 1) % 64 = startBit + 1 :=
            Nat.mod_eq_of_lt (by omega)
          rw [hmod, Nat.one_shiftLeft] at hle
          have : (0:Nat) < 2 ^ (startBit + 1) := Nat.pos_pow_of_pos _ (by norm_num)
          omega
        have := sixtythree_sub_clz64_lt hm0 hmlt (by omega)
        omega
    ·
      have hmem : ∀ p ∈ (withIdxFrom 0 (bm.blocks.take startBlock)).reverse,
          p.1 < startBlock ∨ startBlock = 0 := by
        intro p hp
        rw [List.mem_reverse] at hp
        have := withIdxFrom_mem hp
        have hlen : (bm.blocks.take startBlock).length ≤ startBlock := by
          simp [List.length_take]
        omega
      by_cases hsb0 : startBlock = 0
      · rw [hsb0] at h
        simp [findPrevBlocksAux, withIdxFrom] at h
      · have := @findPrevBlocksAux_some _ _ startBlock
          (fun p hp => (hmem p hp).resolve_right hsb0) h
        have : i < startBlock * 64 := this
        omega

theorem FastBitmap.set_len (bm : FastBitmap) (i : Nat) (v : Bool) :
    (bm.set i v).len = bm.len := by
  unfold FastBitmap.set
  split <;> rfl

/-! The SPSC ring buffer (ringbuffer.rs), used for every price-level queue.
    `MaybeUninit<T>` slots are modelled as `Option α` with `none` for
    uninitialised; `push` returns `none` for `Err(value)` (queue full) and
    `some` of the updated buffer for `Ok(())`. -/

structure RingBuffer (α : Type) where
  buffer : List (Option α)
  capacity : Nat
  head : Nat
  tail : Nat
  len : Nat
deriving DecidableEq

/-- `RingBuffer::with_capacity(capacity)` (ringbuffer.rs, lines 53-69); the
    source asserts `capacity > 0`. -/
def RingBuffer.withCapacity (α : Type) (capacity : Nat) : RingBuffer α :=
  { buffer := List.replicate capacity none, capacity := capacity,
    head := 0, tail := 0, len := 0 }

/-- `RingBuffer::push(value)` (ringbuffer.rs, lines 80-93): `none` models
    `Err(value)` when the buffer is full. -/
def RingBuffer.push {α : Type} (rb : RingBuffer α) (value : α) :
    Option (RingBuffer α) :=
  if rb.len ≥ rb.capacity then none
  else some { rb with buffer := rb.buffer.set rb.tail (some value),
                      tail := (rb.tail + 1) % rb.capacity,
                      len := rb.len + 1 }

/-- `RingBuffer::pop()` (ringbuffer.rs, lines 104-120).  The slot is read
    but (as in the source, which moves out of `MaybeUninit`) not rewritten. -/
def RingBuffer.pop {α : Type} (rb : RingBuffer α) : Option α × RingBuffer α :=
  if rb.len = 0 then (none, rb)
  else ((rb.buffer.get? rb.head).getD none,
        { rb with head := (rb.head + 1) % rb.capacity, len := rb.len - 1 })

/-- `RingBuffer::front()` (ringbuffer.rs, lines 124-133). -/
def RingBuffer.front {α : Type} (rb : RingBuffer α) : Option α :=
  if rb.len = 0 then none else (rb.buffer.get? rb.head).getD none

/-- A write through `RingBuffer::front_mut()` (ringbuffer.rs, lines
    137-146): apply `f` to the front element in place. -/
def RingBuffer.modifyFront {α : Type} (rb : RingBuffer α) (f : α → α) :
    RingBuffer α :=
  if rb.len = 0 then rb
  else { rb with
         buffer := rb.buffer.set rb.head (((rb.buffer.get? rb.head).getD none).map f) }

/-- Recursion worker for `RingBuffer.drainAll`, structural on a counter
    kept synchronised with `rb.len` (each `pop` on a nonempty buffer lowers
    `len` by exactly one, and `len = 0` is exactly when `pop` yields
    `None`). -/
def drainAllAux {α : Type} : Nat → RingBuffer α → List α × RingBuffer α
  | 0, rb => ([], rb)
  | n + 1, rb =>
    let p := rb.pop
    let rest := drainAllAux n p.2
    (match p.1 with
     | some v => v :: rest.1
     | none => rest.1, rest.2)

/-- The `while let Some(order) = queue.pop()` drain loop of
    `cancel_order` (tick_based.rs, lines 539-548): pop everything, returning
    the popped elements in FIFO order together with the emptied buffer. -/
def RingBuffer.drainAll {α : Type} (rb : RingBuffer α) :
    List α × RingBuffer α :=
  drainAllAux rb.len rb

/-- Recursion worker for `RingBuffer.toList`, structural on a counter kept
    synchronised with `rb.len`. -/
def toListAux {α : Type} : Nat → RingBuffer α → List α
  | 0, _ => []
  | n + 1, rb =>
    match (rb.pop).1 with
    | some v => v :: toListAux n (rb.pop).2
    | none => toListAux n (rb.pop).2

/-- The sequence of live elements, head first: the abstract queue that a
    well-formed ring buffer represents. -/
def RingBuffer.toList {α : Type} (rb : RingBuffer α) : List α :=
  toListAux rb.len rb

/-- Well-formedness of a ring buffer: the invariant maintained by the Rust
    implementation (buffer allocated at `capacity`, `head`/`tail`/`len`
    coherent, all live slots initialised). -/
def RingBuffer.WF {α : Type} (rb : RingBuffer α) : Prop :=
  rb.buffer.length = rb.capacity ∧ rb.len ≤ rb.capacity ∧
  rb.head < rb.capacity ∧ rb.tail = (rb.head + rb.len) % rb.capacity ∧
  ∀ k, k < rb.len → ((rb.buffer.get? ((rb.head + k) % rb.capacity)).getD none).isSome

theorem RingBuffer.pop_fst {α : Type} (rb : RingBuffer α) :
    (rb.pop).1 = rb.front := by
  unfold RingBuffer.pop RingBuffer.front
  split <;> rfl

theorem RingBuffer.pop_snd_len {α : Type} (rb : RingBuffer α)
    (h : rb.len ≠ 0) : (rb.pop).2.len = rb.len - 1 := by
  simp only [RingBuffer.pop, if_neg h]

theorem RingBuffer.pop_snd_capacity {α : Type} (rb : RingBuffer α) :
    (rb.pop).2.capacity = rb.capacity := by
  unfold RingBuffer.pop
  split <;> rfl

theorem RingBuffer.front_some_len {α : Type} {rb : RingBuffer α} {v : α}
    (h : rb.front = some v) : rb.len ≠ 0 := by
  intro h0
  rw [RingBuffer.front, if_pos h0] at h
  exact Option.noConfusion h

theorem RingBuffer.front_none_len {α : Type} {rb : RingBuffer α}
    (hwf : rb.WF) (h : rb.front = none) : rb.len = 0 := by
  by_contra h0
  obtain ⟨_, _, hhead, _, hlive⟩ := hwf
  have h1 : ((rb.buffer.get? ((rb.head + 0) % rb.capacity)).getD none).isSome :=
    hlive 0 (Nat.pos_of_ne_zero h0)
  rw [RingBuffer.front, if_neg h0] at h
  rw [Nat.add_zero, Nat.mod_eq_of_lt hhead] at h1
  rw [h] at h1
  exact Bool.noConfusion h1

theorem RingBuffer.modifyFront_len {α : Type} (rb : RingBuffer α) (f : α → α) :
    (rb.modifyFront f).len = rb.len := by
  unfold RingBuffer.modifyFront
  split <;> rfl

theorem RingBuffer.modifyFront_capacity {α : Type} (rb : RingBuffer α)
    (f : α → α) : (rb.modifyFront f).capacity = rb.capacity := by
  unfold RingBuffer.modifyFront
  split <;> rfl

theorem RingBuffer.push_len {α : Type} {rb rb' : RingBuffer α} {v : α}
    (h : rb.push v = some rb') : rb'.len = rb.len + 1 := by
  unfold RingBuffer.push at h
  split at h
  · exact Option.noConfusion h
  · rw [Option.some.injEq] at h
    subst h
    rfl

theorem RingBuffer.push_capacity {α : Type} {rb rb' : RingBuffer α} {v : α}
    (h : rb.push v = some rb') : rb'.capacity = rb.capacity := by
  unfold RingBuffer.push at h
  split at h
  · exact Option.noConfusion h
  · rw [Option.some.injEq] at h
    subst h
    rfl

theorem RingBuffer.push_none {α : Type} {rb : RingBuffer α} {v : α} :
    rb.push v = none ↔ rb.len ≥ rb.capacity := by
  unfold RingBuffer.push
  split
  · simp [*]
  · simp [*]

/-- Cancellation of addition inside `% c` for summands below `c`. -/
theorem addModCancel {h a b c : Nat} (ha : a < c) (hb : b < c)
    (heq : (h + a) % c = (h + b) % c) : a = b := by
  have hm : a ≡ b [MOD c] := by
    have h1 : h + a ≡ h + b [MOD c] := heq
    have h2 : a + h ≡ b + h [MOD c] := by
      simpa [Nat.add_comm] using h1
    exact Nat.ModEq.add_right_cancel' h h2
  have hm' : a % c = b % c := hm
  rwa [Nat.mod_eq_of_lt ha, Nat.mod_eq_of_lt hb] at hm'

theorem RingBuffer.wf_withCapacity {α : Type} {c : Nat} (hc : 0 < c) :
    (RingBuffer.withCapacity α c).WF := by
  refine ⟨by simp [RingBuffer.withCapacity], by simp [RingBuffer.withCapacity],
    by simpa [RingBuffer.withCapacity] using hc, by simp [RingBuffer.withCapacity], ?_⟩
  intro k hk
  simp [RingBuffer.withCapacity] at hk

theorem RingBuffer.wf_pop {α : Type} {rb : RingBuffer α} (hwf : rb.WF)
    (h : rb.len ≠ 0) : (rb.pop).2.WF := by
  obtain ⟨hbuf, hlen, hhead, htail, hlive⟩ := hwf
  have hp : (rb.pop).2
      = { rb with head := (rb.head + 1) % rb.capacity, len := rb.len - 1 } := by
    rw [RingBuffer.pop, if_neg h]
  rw [hp]
  refine ⟨hbuf, show rb.len - 1 ≤ rb.capacity by omega,
    Nat.mod_lt _ (show 0 < rb.capacity by omega), ?_, ?_⟩
  · show rb.tail = ((rb.head + 1) % rb.capacity + (rb.len - 1)) % rb.capacity
    rw [htail, Nat.mod_add_mod]
    congr 1
    omega
  · intro k hk
    show ((rb.buffer.get? (((rb.head + 1) % rb.capacity + k) % rb.capacity)).getD
      none).isSome
    have hk' : k < rb.len - 1 := hk
    have h1 : ((rb.head + 1) % rb.capacity + k) % rb.capacity
        = (rb.head + (k + 1)) % rb.capacity := by
      rw [Nat.mod_add_mod]
      congr 1
      omega
    rw [h1]
    exact hlive (k + 1) (by omega)

theorem RingBuffer.toList_len_zero {α : Type} {rb : RingBuffer α}
    (h : rb.len = 0) : rb.toList = [] := by
  unfold RingBuffer.toList
  rw [h]
  rfl

theorem RingBuffer.toList_eq_cons {α : Type} {rb : RingBuffer α} {v : α}
    (h : rb.front = some v) : rb.toList = v :: (rb.pop).2.toList := by
  have hlen := RingBuffer.front_some_len h
  obtain ⟨m, hm⟩ : ∃ m, rb.len = m + 1 := ⟨rb.len - 1, by omega⟩
  have hm2 : (rb.pop).2.len = m := by
    rw [RingBuffer.pop_snd_len _ hlen, hm]
    rfl
  show toListAux rb.len rb = v :: toListAux (rb.pop).2.len (rb.pop).2
  rw [hm, hm2]
  show (match (rb.pop).1 with
    | some w => w :: toListAux m (rb.pop).2
    | none => toListAux m (rb.pop).2) = v :: toListAux m (rb.pop).2
  rw [RingBuffer.pop_fst, h]

theorem RingBuffer.wf_modifyFront {α : Type} {rb : RingBuffer α} (hwf : rb.WF)
    (f : α → α) : (rb.modifyFront f).WF := by
  obtain ⟨hbuf, hlen, hhead, htail, hlive⟩ := hwf
  unfold RingBuffer.modifyFront
  split
  · exact ⟨hbuf, hlen, hhead, htail, hlive⟩
  · rename_i h0
    refine ⟨?_, hlen, hhead, htail, ?_⟩
    · show (rb.buffer.set rb.head _).length = rb.capacity
      rw [List.length_set]
      exact hbuf
    · intro k hk
      have hk' : k < rb.len := hk
      show ((rb.buffer.set rb.head (((rb.buffer.get? rb.head).getD none).map f)).get?
        ((rb.head + k) % rb.capacity)).getD none |>.isSome
      by_cases hk0 : k = 0
      · subst hk0
        have hidx : (rb.head + 0) % rb.capacity = rb.head := by
          rw [Nat.add_zero]
          exact Nat.mod_eq_of_lt hhead
        have hsome := hlive 0 (by omega)
        rw [hidx] at hsome
        obtain ⟨w, hw⟩ := Option.isSome_iff_exists.mp hsome
        rw [hidx, hw, List.get?_eq_getElem?, List.getElem?_set_self (by omega)]
        rfl
      · have hne : rb.head ≠ (rb.head + k) % rb.capacity := by
          intro heq
          have h0' : (rb.head + 0) % rb.capacity = rb.head := by
            rw [Nat.add_zero]
            exact Nat.mod_eq_of_lt hhead
          have : (0 : Nat) = k :=
            @addModCancel rb.head 0 k rb.capacity (by omega) (by omega)
              (by rw [h0']; exact heq)
          omega
        rw [List.get?_eq_getElem?, List.getElem?_set_ne hne,
          ← List.get?_eq_getElem?]
        exact hlive k hk

theorem RingBuffer.wf_push {α : Type} {rb rb' : RingBuffer α} {v : α}
    (hwf : rb.WF) (h : rb.push v = some rb') : rb'.WF := by
  obtain ⟨hbuf, hlen, hhead, htail, hlive⟩ := hwf
  unfold RingBuffer.push at h
  split at h
  · exact Option.noConfusion h
  · rename_i hfull
    have hltcap : rb.len < rb.capacity := by omega
    rw [Option.some.injEq] at h
    subst h
    refine ⟨?_, ?_, hhead, ?_, ?_⟩
    · show (rb.buffer.set rb.tail (some v)).length = rb.capacity
      rw [List.length_set]
      exact hbuf
    · show rb.len + 1 ≤ rb.capacity
      omega
    · show (rb.tail + 1) % rb.capacity = (rb.head + (rb.len + 1)) % rb.capacity
      rw [htail, Nat.mod_add_mod, Nat.add_assoc]
    · intro k hk
      show ((rb.buffer.set rb.tail (some v)).get? ((rb.head + k) % rb.capacity)).getD
        none |>.isSome
      have hkk : k < rb.len + 1 := hk
      by_cases hke : k = rb.len
      · subst hke
        have hidx : (rb.head + rb.len) % rb.capacity = rb.tail := htail.symm
        rw [hidx, List.get?_eq_getElem?,
          List.getElem?_set_self
            (by rw [hbuf, htail]; exact Nat.mod_lt _ (by omega))]
        rfl
      · have hne : rb.tail ≠ (rb.head + k) % rb.capacity := by
          intro heq
          rw [htail] at heq
          have : rb.len = k :=
            addModCancel (by omega) (by omega) heq
          omega
        rw [List.get?_eq_getElem?, List.getElem?_set_ne hne,
          ← List.get?_eq_getElem?]
        exact hlive k (by omega)

/-! The tick-indexed order book (tick_based.rs) and the protocol value
    types it produces.  Symbol interning (`SymbolPool::intern`) returns a
    handle comparing equal to the interned string, so it is modelled as the
    identity on `String`. -/

/-- `OrderType` (protocol): the side of a new order. -/
inductive OrderType where
  | Buy : OrderType
  | Sell : OrderType
deriving DecidableEq

/-- `NewOrderRequest` (protocol): submitter, symbol, side, price, quantity. -/
structure NewOrderRequest where
  user_id : Nat
  symbol : String
  order_type : OrderType
  price : Nat
  quantity : Nat
deriving DecidableEq

/-- `TradeNotification` (protocol), field for field as constructed at
    tick_based.rs lines 231-241 and 308-318. -/
structure TradeNotification where
  trade_id : Nat
  symbol : String
  matched_price : Nat
  matched_quantity : Nat
  buyer_user_id : Nat
  buyer_order_id : Nat
  seller_user_id : Nat
  seller_order_id : Nat
  timestamp : Nat
deriving DecidableEq

/-- `OrderConfirmation` (protocol). -/
structure OrderConfirmation where
  user_id : Nat
  order_id : Nat
deriving DecidableEq

/-- `OrderNode` (tick_based.rs, lines 24-32). -/
structure OrderNode where
  user_id : Nat
  order_id : Nat
  price : Nat
  quantity : Nat
  cancelled : Bool
deriving DecidableEq

/-- `ContractSpec` (tick_based.rs, lines 35-47); all fields are public, so
    books can be built from arbitrary field values.  `ContractSpec::new`
    additionally asserts `tick_size > 0`, `max_price > min_price`,
    `(max_price - min_price) % tick_size = 0` and fixes
    `queue_capacity = 2048`. -/
structure ContractSpec where
  symbol : String
  tick_size : Nat
  min_price : Nat
  max_price : Nat
  queue_capacity : Nat
deriving DecidableEq

/-- `ContractSpec::new` (tick_based.rs, lines 60-75). -/
def ContractSpec.make (symbol : String) (tick_size min_price max_price : Nat) :
    ContractSpec :=
  { symbol := symbol, tick_size := tick_size, min_price := min_price,
    max_price := max_price, queue_capacity := 2048 }

/-- `OrderLocation` (tick_based.rs, lines 79-85). -/
structure OrderLocation where
  price_idx : Nat
  is_bid : Bool
deriving DecidableEq

/-- `HashMap::get` on the order-id → location map, modelled as an
    association list. -/
def locFind (m : List (Nat × OrderLocation)) (k : Nat) : Option OrderLocation :=
  (m.find? (fun p => p.1 == k)).map (fun p => p.2)

/-- `HashMap::insert` (overwriting) on the location map. -/
def locInsert (m : List (Nat × OrderLocation)) (k : Nat) (v : OrderLocation) :
    List (Nat × OrderLocation) :=
  (k, v) :: m.filter (fun p => p.1 != k)

/-- `HashMap::remove` on the location map. -/
def locErase (m : List (Nat × OrderLocation)) (k : Nat) :
    List (Nat × OrderLocation) :=
  m.filter (fun p => p.1 != k)

/-- `TickBasedOrderBook` (tick_based.rs, lines 88-122); the symbol pool is
    not part of the model (interning is the identity). -/
structure TickBasedOrderBook where
  spec : ContractSpec
  bid_levels : List (Option (RingBuffer OrderNode))
  ask_levels : List (Option (RingBuffer OrderNode))
  bid_bitmap : FastBitmap
  ask_bitmap : FastBitmap
  best_bid_idx : Option Nat
  best_ask_idx : Option Nat
  next_order_id : Nat
  order_locations : List (Nat × OrderLocation)
deriving DecidableEq

/-- `num_levels` as computed in `with_symbol_pool` (tick_based.rs, line
    132): `(max_price - min_price) / tick_size + 1`. -/
def numLevels (spec : ContractSpec) : Nat :=
  (spec.max_price - spec.min_price) / spec.tick_size + 1

/-- `TickBasedOrderBook::with_symbol_pool(spec, pool)` (tick_based.rs,
    lines 131-146): construction of a fresh book. -/
def TickBasedOrderBook.make (spec : ContractSpec) : TickBasedOrderBook :=
  { spec := spec,
    bid_levels := List.replicate (numLevels spec) none,
    ask_levels := List.replicate (numLevels spec) none,
    bid_bitmap := FastBitmap.new (numLevels spec),
    ask_bitmap := FastBitmap.new (numLevels spec),
    best_bid_idx := none,
    best_ask_idx := none,
    next_order_id := 1,
    order_locations := [] }

/-- `TickBasedOrderBook::price_to_index(price)` (tick_based.rs, lines
    155-164). -/
def priceToIndex (spec : ContractSpec) (price : Nat) : Option Nat :=
  if price < spec.min_price ∨ price > spec.max_price then none
  else if (price - spec.min_price) % spec.tick_size ≠ 0 then none
  else some ((price - spec.min_price) / spec.tick_size)

/-- `TickBasedOrderBook::index_to_price(index)` (tick_based.rs, lines
    167-170). -/
def indexToPrice (spec : ContractSpec) (index : Nat) : Nat :=
  spec.min_price + index * spec.tick_size

/-- The state threaded through the inner per-level matching loop
    (tick_based.rs, lines 215-255 / 292-332): the level queue, the
    incoming order's remaining quantity, the id → location map and the
    trades generated so far. -/
structure LevelOut where
  queue : RingBuffer OrderNode
  remaining : Nat
  locs : List (Nat × OrderLocation)
  trades : List TradeNotification
deriving DecidableEq

/-- Recursion worker for `matchAskLevel`, structural on a counter kept
    synchronised with `q.len` (`front` yields `some` only when `len ≠ 0`,
    and each `pop` lowers `len` by exactly one, so the counter never runs
    out before the loop's own exit conditions fire). -/
def matchAskLevelAux (uid nid : Nat) (sym : String) (levelPrice : Nat) :
    Nat → RingBuffer OrderNode → Nat → List (Nat × OrderLocation) →
    List TradeNotification → LevelOut
  | 0, q, remaining, locs, trades => ⟨q, remaining, locs, trades⟩
  | n + 1, q, remaining, locs, trades =>
    match q.front with
    | none => ⟨q, remaining, locs, trades⟩
    | some co =>
      if remaining = 0 then ⟨q, remaining, locs, trades⟩
      else if co.cancelled then
        matchAskLevelAux uid nid sym levelPrice n (q.pop).2 remaining
          (locErase locs co.order_id) trades
      else
        let tradeQty := min remaining co.quantity
        let trades' := trades ++ [⟨0, sym, levelPrice, tradeQty, uid, nid,
          co.user_id, co.order_id, 0⟩]
        let remaining' := remaining - tradeQty
        if co.quantity - tradeQty = 0 then
          matchAskLevelAux uid nid sym levelPrice n (q.pop).2 remaining'
            (locErase locs co.order_id) trades'
        else
          ⟨q.modifyFront (fun o => { o with quantity := o.quantity - tradeQty }),
            remaining', locs, trades'⟩

/-- The inner `while let Some(counter_order) = queue.front_mut()` loop of
    the Buy branch (tick_based.rs, lines 215-255): skip-and-pop cancelled
    orders, otherwise trade `min(remaining, front.quantity)`; a fully
    filled counter-order is popped and its id unmapped, a partially filled
    one is decremented in place and the loop stops. -/
def matchAskLevel (uid nid : Nat) (sym : String) (levelPrice : Nat)
    (q : RingBuffer OrderNode) (remaining : Nat)
    (locs : List (Nat × OrderLocation)) (trades : List TradeNotification) :
    LevelOut :=
  matchAskLevelAux uid nid sym levelPrice q.len q remaining locs trades

/-- Recursion worker for `matchBidLevel`; see `matchAskLevelAux`. -/
def matchBidLevelAux (uid nid : Nat) (sym : String) (levelPrice : Nat) :
    Nat → RingBuffer OrderNode → Nat → List (Nat × OrderLocation) →
    List TradeNotification → LevelOut
  | 0, q, remaining, locs, trades => ⟨q, remaining, locs, trades⟩
  | n + 1, q, remaining, locs, trades =>
    match q.front with
    | none => ⟨q, remaining, locs, trades⟩
    | some co =>
      if remaining = 0 then ⟨q, remaining, locs, trades⟩
      else if co.cancelled then
        matchBidLevelAux uid nid sym levelPrice n (q.pop).2 remaining
          (locErase locs co.order_id) trades
      else
        let tradeQty := min remaining co.quantity
        let trades' := trades ++ [⟨0, sym, levelPrice, tradeQty,
          co.user_id, co.order_id, uid, nid, 0⟩]
        let remaining' := remaining - tradeQty
        if co.quantity - tradeQty = 0 then
          matchBidLevelAux uid nid sym levelPrice n (q.pop).2 remaining'
            (locErase locs co.order_id) trades'
        else
          ⟨q.modifyFront (fun o => { o with quantity := o.quantity - tradeQty }),
            remaining', locs, trades'⟩

/-- The inner loop of the Sell branch (tick_based.rs, lines 292-332):
    identical to `matchAskLevel` with the buyer and seller roles swapped in
    the generated trade. -/
def matchBidLevel (uid nid : Nat) (sym : String) (levelPrice : Nat)
    (q : RingBuffer OrderNode) (remaining : Nat)
    (locs : List (Nat × OrderLocation)) (trades : List TradeNotification) :
    LevelOut :=
  matchBidLevelAux uid nid sym levelPrice q.len q remaining locs trades

/-- The state threaded through the outer price-walk loop of `match_order`:
    the opposite side's level array and bitmap, the location map, the
    trades and the remaining quantity. -/
structure WalkOut where
  levels : List (Option (RingBuffer OrderNode))
  bm : FastBitmap
  locs : List (Nat × OrderLocation)
  trades : List TradeNotification
  remaining : Nat
deriving DecidableEq

/-- One iteration body of the Buy branch's outer loop (tick_based.rs, lines
    213-262): process the level queue at `idx` (if the slot holds one) and
    clear the slot and the bitmap bit when the queue has been emptied. -/
def buyStep (uid nid : Nat) (sym : String) (spec : ContractSpec)
    (levels : List (Option (RingBuffer OrderNode))) (bm : FastBitmap)
    (locs : List (Nat × OrderLocation)) (trades : List TradeNotification)
    (remaining : Nat) (idx : Nat) : WalkOut :=
  match levels.get? idx with
  | some (some q) =>
    let out := matchAskLevel uid nid sym (indexToPrice spec idx) q remaining
      locs trades
    if out.queue.len = 0 then
      ⟨levels.set idx none, bm.set idx false, out.locs, out.trades,
        out.remaining⟩
    else
      ⟨levels.set idx (some out.queue), bm, out.locs, out.trades,
        out.remaining⟩
  | _ => ⟨levels, bm, locs, trades, remaining⟩

/-- One iteration body of the Sell branch's outer loop (tick_based.rs,
    lines 290-339). -/
def sellStep (uid nid : Nat) (sym : String) (spec : ContractSpec)
    (levels : List (Option (RingBuffer OrderNode))) (bm : FastBitmap)
    (locs : List (Nat × OrderLocation)) (trades : List TradeNotification)
    (remaining : Nat) (idx : Nat) : WalkOut :=
  match levels.get? idx with
  | some (some q) =>
    let out := matchBidLevel uid nid sym (indexToPrice spec idx) q remaining
      locs trades
    if out.queue.len = 0 then
      ⟨levels.set idx none, bm.set idx false, out.locs, out.trades,
        out.remaining⟩
    else
      ⟨levels.set idx (some out.queue), bm, out.locs, out.trades,
        out.remaining⟩
  | _ => ⟨levels, bm, locs, trades, remaining⟩

theorem buyStep_bm_len (uid nid : Nat) (sym : String) (spec : ContractSpec)
    (levels : List (Option (RingBuffer OrderNode))) (bm : FastBitmap)
    (locs : List (Nat × OrderLocation)) (trades : List TradeNotification)
    (remaining : Nat) (idx : Nat) :
    (buyStep uid nid sym spec levels bm locs trades remaining idx).bm.len
      = bm.len := by
  unfold buyStep
  split
  · dsimp only
    split
    · exact FastBitmap.set_len _ _ _
    · rfl
  · rfl

/-- Recursion worker for `buyWalkFrom`, structural on a step counter.  The
    walk's indices strictly increase (`findNextOne_some`) and stay below
    the bitmap length, which `buyStep` preserves (`buyStep_bm_len`), so a
    call with counter `n ≥ bm.len + 1 - idx` - as from the entry point -
    maintains that bound and reaches counter `0` only with
    `idx > bm.len`, where `find_next_one` is `none` by its first guard and
    the loop stops after the current iteration exactly as written here. -/
def buyWalkAux (reqPrice uid nid : Nat) (sym : String) (spec : ContractSpec) :
    Nat → List (Option (RingBuffer OrderNode)) → FastBitmap →
    List (Nat × OrderLocation) → List TradeNotification → Nat → Nat → WalkOut
  | 0, levels, bm, locs, trades, remaining, idx =>
    if remaining = 0 then ⟨levels, bm, locs, trades, remaining⟩
    else if indexToPrice spec idx > reqPrice then
      ⟨levels, bm, locs, trades, remaining⟩
    else buyStep uid nid sym spec levels bm locs trades remaining idx
  | n + 1, levels, bm, locs, trades, remaining, idx =>
    if remaining = 0 then ⟨levels, bm, locs, trades, remaining⟩
    else if indexToPrice spec idx > reqPrice then
      ⟨levels, bm, locs, trades, remaining⟩
    else
      let s := buyStep uid nid sym spec levels bm locs trades remaining idx
      match s.bm.findNextOne idx with
      | none => s
      | some nxt =>
        buyWalkAux reqPrice uid nid sym spec n s.levels s.bm s.locs s.trades
          s.remaining nxt

/-- The Buy branch's outer `while let Some(idx) = current_idx` loop
    (tick_based.rs, lines 203-266), entered at price index `idx`: stop when
    the remaining quantity is exhausted or the level price exceeds the
    request's limit price, otherwise process the level and advance upward
    via `find_next_one`. -/
def buyWalkFrom (reqPrice uid nid : Nat) (sym : String) (spec : ContractSpec)
    (levels : List (Option (RingBuffer OrderNode))) (bm : FastBitmap)
    (locs : List (Nat × OrderLocation)) (trades : List TradeNotification)
    (remaining : Nat) (idx : Nat) : WalkOut :=
  buyWalkAux reqPrice uid nid sym spec (bm.len + 1) levels bm locs trades
    remaining idx

/-- Recursion worker for `sellWalkFrom`, structural on a step counter.  The
    walk's indices strictly decrease (`findPrevOne_some`), so the entry
    counter `idx + 1` keeps the bound `n ≥ idx + 1` along the walk and the
    counter-`0` case is unreachable from the entry point. -/
def sellWalkAux (reqPrice uid nid : Nat) (sym : String) (spec : ContractSpec) :
    Nat → List (Option (RingBuffer OrderNode)) → FastBitmap →
    List (Nat × OrderLocation) → List TradeNotification → Nat → Nat → WalkOut
  | 0, levels, bm, locs, trades, remaining, idx =>
    if remaining = 0 then ⟨levels, bm, locs, trades, remaining⟩
    else if indexToPrice spec idx < reqPrice then
      ⟨levels, bm, locs, trades, remaining⟩
    else sellStep uid nid sym spec levels bm locs trades remaining idx
  | n + 1, levels, bm, locs, trades, remaining, idx =>
    if remaining = 0 then ⟨levels, bm, locs, trades, remaining⟩
    else if indexToPrice spec idx < reqPrice then
      ⟨levels, bm, locs, trades, remaining⟩
    else
      let s := sellStep uid nid sym spec levels bm locs trades remaining idx
      match s.bm.findPrevOne idx with
      | none => s
      | some nxt =>
        sellWalkAux reqPrice uid nid sym spec n s.levels s.bm s.locs s.trades
          s.remaining nxt

/-- The Sell branch's outer loop (tick_based.rs, lines 280-343), advancing
    downward via `find_prev_one` (release semantics). -/
def sellWalkFrom (reqPrice uid nid : Nat) (sym : String) (spec : ContractSpec)
    (levels : List (Option (RingBuffer OrderNode))) (bm : FastBitmap)
    (locs : List (Nat × OrderLocation)) (trades : List TradeNotification)
    (remaining : Nat) (idx : Nat) : WalkOut :=
  sellWalkAux reqPrice uid nid sym spec (idx + 1) levels bm locs trades
    remaining idx

/-- Entry into the Buy branch's outer loop from the cached best-ask index
    (tick_based.rs, line 201). -/
def buyWalk (reqPrice uid nid : Nat) (sym : String) (spec : ContractSpec)
    (levels : List (Option (RingBuffer OrderNode))) (bm : FastBitmap)
    (locs : List (Nat × OrderLocation)) (trades : List TradeNotification)
    (remaining : Nat) : Option Nat → WalkOut
  | none => ⟨levels, bm, locs, trades, remaining⟩
  | some idx => buyWalkFrom reqPrice uid nid sym spec levels bm locs trades
      remaining idx

/-- Entry into the Sell branch's outer loop from the cached best-bid index
    (tick_based.rs, line 278). -/
def sellWalk (reqPrice uid nid : Nat) (sym : String) (spec : ContractSpec)
    (levels : List (Option (RingBuffer OrderNode))) (bm : FastBitmap)
    (locs : List (Nat × OrderLocation)) (trades : List TradeNotification)
    (remaining : Nat) : Option Nat → WalkOut
  | none => ⟨levels, bm, locs, trades, remaining⟩
  | some idx => sellWalkFrom reqPrice uid nid sym spec levels bm locs trades
      remaining idx

/-- The best-bid cache update of `add_bid_order` (tick_based.rs, lines
    400-403): `if best.is_none() || idx > best.unwrap() { best = some idx }`. -/
def bestUp : Option Nat → Nat → Option Nat
  | none, idx => some idx
  | some cur, idx => if idx > cur then some idx else some cur

/-- The best-ask cache update of `add_ask_order` (tick_based.rs, lines
    438-441). -/
def bestDown : Option Nat → Nat → Option Nat
  | none, idx => some idx
  | some cur, idx => if idx < cur then some idx else some cur

/-- The level queue produced by
    `self.bid_levels[idx].get_or_insert_with(|| RingBuffer::with_capacity(cap))`
    (tick_based.rs, lines 384-385): the existing queue, or a fresh one. -/
def getOrInsertQueue (levels : List (Option (RingBuffer OrderNode)))
    (idx : Nat) (cap : Nat) : RingBuffer OrderNode :=
  match levels.get? idx with
  | some (some q) => q
  | _ => RingBuffer.withCapacity OrderNode cap

/-- `TickBasedOrderBook::add_bid_order(idx, user_id, quantity, order_id)`
    (tick_based.rs, lines 375-404).  On push failure (queue full) the order
    is dropped with only a log line: no location is recorded, but the
    bitmap bit is still set and the best-bid cache still updated; the slot
    keeps the (unchanged) queue that `get_or_insert_with` produced. -/
def addBidOrder (b : TickBasedOrderBook) (idx uid quantity orderId : Nat) :
    TickBasedOrderBook :=
  let order : OrderNode :=
    ⟨uid, orderId, indexToPrice b.spec idx, quantity, false⟩
  let q := getOrInsertQueue b.bid_levels idx b.spec.queue_capacity
  match q.push order with
  | none =>
    { b with bid_levels := b.bid_levels.set idx (some q),
             bid_bitmap := b.bid_bitmap.set idx true,
             best_bid_idx := bestUp b.best_bid_idx idx }
  | some q' =>
    { b with bid_levels := b.bid_levels.set idx (some q'),
             order_locations := locInsert b.order_locations orderId ⟨idx, true⟩,
             bid_bitmap := b.bid_bitmap.set idx true,
             best_bid_idx := bestUp b.best_bid_idx idx }

/-- `TickBasedOrderBook::add_ask_order` (tick_based.rs, lines 413-442). -/
def addAskOrder (b : TickBasedOrderBook) (idx uid quantity orderId : Nat) :
    TickBasedOrderBook :=
  let order : OrderNode :=
    ⟨uid, orderId, indexToPrice b.spec idx, quantity, false⟩
  let q := getOrInsertQueue b.ask_levels idx b.spec.queue_capacity
  match q.push order with
  | none =>
    { b with ask_levels := b.ask_levels.set idx (some q),
             ask_bitmap := b.ask_bitmap.set idx true,
             best_ask_idx := bestDown b.best_ask_idx idx }
  | some q' =>
    { b with ask_levels := b.ask_levels.set idx (some q'),
             order_locations := locInsert b.order_locations orderId ⟨idx, false⟩,
             ask_bitmap := b.ask_bitmap.set idx true,
             best_ask_idx := bestDown b.best_ask_idx idx }

/-- `TickBasedOrderBook::find_best_bid` (tick_based.rs, lines 451-453). -/
def findBestBid (b : TickBasedOrderBook) : Option Nat :=
  b.bid_bitmap.findLastOne

/-- `TickBasedOrderBook::find_best_ask` (tick_based.rs, lines 462-464). -/
def findBestAsk (b : TickBasedOrderBook) : Option Nat :=
  b.ask_bitmap.findFirstOne

/-- `TickBasedOrderBook::match_order(request)` (tick_based.rs, lines
    173-366): reject an invalid price with an empty result before drawing
    an order id; otherwise draw `new_order_id`, increment the counter,
    run the side's matching walk, recompute the opposite best cache from
    the bitmap, rest any residual, and return a confirmation exactly when
    the residual quantity is positive. -/
def matchOrder (b : TickBasedOrderBook) (request : NewOrderRequest) :
    TickBasedOrderBook × List TradeNotification × Option OrderConfirmation :=
  match priceToIndex b.spec request.price with
  | none => (b, [], none)
  | some requestIdx =>
    let newOrderId := b.next_order_id
    let b1 := { b with next_order_id := b.next_order_id + 1 }
    match request.order_type with
    | OrderType.Buy =>
      let w := buyWalk request.price request.user_id newOrderId request.symbol
        b1.spec b1.ask_levels b1.ask_bitmap b1.order_locations [] request.quantity
        b1.best_ask_idx
      let b2 := { b1 with ask_levels := w.levels, ask_bitmap := w.bm,
                          order_locations := w.locs,
                          best_ask_idx := w.bm.findFirstOne }
      let b3 := if w.remaining > 0 then
          addBidOrder b2 requestIdx request.user_id w.remaining newOrderId
        else b2
      let conf := if w.remaining > 0 then
          some (OrderConfirmation.mk request.user_id newOrderId)
        else none
      (b3, w.trades, conf)
    | OrderType.Sell =>
      let w := sellWalk request.price request.user_id newOrderId request.symbol
        b1.spec b1.bid_levels b1.bid_bitmap b1.order_locations [] request.quantity
        b1.best_bid_idx
      let b2 := { b1 with bid_levels := w.levels, bid_bitmap := w.bm,
                          order_locations := w.locs,
                          best_bid_idx := w.bm.findLastOne }
      let b3 := if w.remaining > 0 then
          addAskOrder b2 requestIdx request.user_id w.remaining newOrderId
        else b2
      let conf := if w.remaining > 0 then
          some (OrderConfirmation.mk request.user_id newOrderId)
        else none
      (b3, w.trades, conf)

/-- `TickBasedOrderBook::cancel_order(order_id)` (tick_based.rs, lines
    516-580): look the id up, rebuild the level queue dropping every order
    with that id (the rebuild happens before the `found` check, exactly as
    in the source), then on success clear the bitmap bit and recompute the
    affected best cache if the level emptied - note the slot itself is
    never set back to `None` - and remove the id from the location map. -/
def cancelOrder (b : TickBasedOrderBook) (order_id : Nat) :
    TickBasedOrderBook × Except String Unit :=
  match locFind b.order_locations order_id with
  | none => (b, Except.error "Order not found")
  | some location =>
    let levels := if location.is_bid then b.bid_levels else b.ask_levels
    match levels.get? location.price_idx with
    | some (some queue) =>
      let d := queue.drainAll
      let temp := d.1.filter (fun o => o.order_id != order_id)
      let found := d.1.any (fun o => o.order_id == order_id)
      let q' := temp.foldl (fun acc o => (acc.push o).getD acc) d.2
      let levels' := levels.set location.price_idx (some q')
      let b1 := if location.is_bid then { b with bid_levels := levels' }
        else { b with ask_levels := levels' }
      if !found then (b1, Except.error "Order not found in queue")
      else
        let b2 :=
          if q'.len = 0 then
            if location.is_bid then
              let bm := b1.bid_bitmap.set location.price_idx false
              { b1 with bid_bitmap := bm,
                        best_bid_idx :=
                          if b1.best_bid_idx = some location.price_idx then
                            bm.findLastOne
                          else b1.best_bid_idx }
            else
              let bm := b1.ask_bitmap.set location.price_idx false
              { b1 with ask_bitmap := bm,
                        best_ask_idx :=
                          if b1.best_ask_idx = some location.price_idx then
                            bm.findFirstOne
                          else b1.best_ask_idx }
          else b1
        ({ b2 with order_locations := locErase b2.order_locations order_id },
          Except.ok ())
    | _ => (b, Except.error "Price level not found")

/-- `TickBasedOrderBook::best_bid()` (tick_based.rs, lines 493-495). -/
def bestBid (b : TickBasedOrderBook) : Option Nat :=
  b.best_bid_idx.map (fun idx => indexToPrice b.spec idx)

/-- `TickBasedOrderBook::best_ask()` (tick_based.rs, lines 498-500). -/
def bestAsk (b : TickBasedOrderBook) : Option Nat :=
  b.best_ask_idx.map (fun idx => indexToPrice b.spec idx)

/-! Concrete books used by the claim theorems.  `ContractSpec.make` is the
    public constructor (capacity 2048); specs with a smaller per-level
    capacity are built from the public fields directly, as Rust permits. -/

/-- The standard book of spec §8: tick 10, range 1000-2000, capacity 2048. -/
def stdBook : TickBasedOrderBook :=
  TickBasedOrderBook.make (ContractSpec.make "TEST" 10 1000 2000)

/-- A wide book whose price range spans more than one bitmap word: tick 10,
    range 1000-2280, so 129 levels with index 64 in the second word. -/
def wideBook : TickBasedOrderBook :=
  TickBasedOrderBook.make (ContractSpec.make "TEST" 10 1000 2280)

/-- The wide book after resting sells at 1630 (index 63) and 1640 (index
    64) and then submitting a buy at 1640 for the combined quantity: the
    walk consumes level 63, `find_next_one(63)` misses the set bit 64
    because `start + 1` is a multiple of 64, and the residual buy rests at
    index 64 where an ask still stands. -/
def crossedBook : TickBasedOrderBook :=
  (matchOrder (matchOrder (matchOrder wideBook
    ⟨1, "TEST", OrderType.Sell, 1630, 10⟩).1
    ⟨2, "TEST", OrderType.Sell, 1640, 10⟩).1
    ⟨3, "TEST", OrderType.Buy, 1640, 20⟩).1

/-- C1: the book CAN be crossed at rest.  The claim states that every book
    reachable from a fresh `TickBasedOrderBook` by `match_order` and
    `cancel_order` calls has `index_to_price(best_bid_idx) <
    index_to_price(best_ask_idx)` whenever both caches are `some`; the
    three `match_order` calls producing `crossedBook` leave
    `best_bid_idx = best_ask_idx = some 64` - both sides resting at price
    1640 - because `find_next_one(63)` skips the bitmap word containing
    bit 64.  The code contradicts the spec's invariant P3 (and
    `find_next_one`'s own documentation). -/
theorem c1_crossed_book_bug :
    crossedBook.best_bid_idx = some 64 ∧
    crossedBook.best_ask_idx = some 64 ∧
    crossedBook.bid_bitmap.get 64 = true ∧
    crossedBook.ask_bitmap.get 64 = true ∧
    ¬ indexToPrice crossedBook.spec 64 < indexToPrice crossedBook.spec 64 := by
  refine ⟨by decide, by decide, by decide, by decide, by decide⟩

/-- C2: `find_next_one` misses a set bit when `start + 1` is a multiple of
    64.  On a 128-bit bitmap with only bit 64 set, `find_next_one(63)`
    returns `none` although bit 64 satisfies `63 < 64 < 128`: when
    `start_bit = (start + 1) % 64 = 0` the source skips the start block
    entirely and scans only the blocks strictly after it.  This contradicts
    the documented contract (smallest `i > start` with bit 1). -/
theorem c2_find_next_one_bug :
    ((FastBitmap.new 128).set 64 true).get 64 = true ∧
    ((FastBitmap.new 128).set 64 true).findNextOne 63 = none := by
  exact ⟨by decide, by decide⟩

/-- C3: `find_prev_one(start)` with `start` a nonzero multiple of 64
    computes `1u64 << 64`: an arithmetic-overflow panic in debug builds
    (modelled by `findPrevOneChecked` returning the outer `none`), and in
    release builds a wrapped shift that degenerates the mask to `0`, so the
    call returns `none` although bit 63 < 64 is set.  Both behaviours
    contradict the claim (no panic, largest `i < start` with bit 1). -/
theorem c3_find_prev_one_bug :
    ((FastBitmap.new 128).set 63 true).get 63 = true ∧
    ((FastBitmap.new 128).set 63 true).findPrevOneChecked 64 = none ∧
    ((FastBitmap.new 128).set 63 true).findPrevOne 64 = none := by
  exact ⟨by decide, by decide, by decide⟩

/-- The off-tick request of scenario S4: price 1505 on a tick-10 book. -/
def offTickReq : NewOrderRequest := ⟨1, "TEST", OrderType.Buy, 1505, 10⟩

/-- C4, counterexample: a `match_order` call rejected for an invalid price
    does NOT increment `next_order_id` - the source returns before the
    counter is touched - so the claim's "plus exactly one ... regardless of
    outcome (... or rejected for invalid price)" fails on the fresh
    standard book with the off-tick request `{user 1, Buy, 1505, 10}`. -/
theorem c4_counterexample :
    (matchOrder stdBook offTickReq).1.next_order_id = stdBook.next_order_id ∧
    ¬ (matchOrder stdBook offTickReq).1.next_order_id
        = stdBook.next_order_id + 1 := by
  exact ⟨by decide, by decide⟩

/-- C7, counterexample: on the same rejected call the emitted trades sum to
    0 and nothing rests, yet the requested quantity is 10, so
    `Σ matched_quantity + (residual resting quantity, if any) = requested`
    fails for a call whose price is invalid. -/
theorem c7_counterexample :
    ((matchOrder stdBook offTickReq).2.1.map
        (fun t => t.matched_quantity)).sum = 0 ∧
    (matchOrder stdBook offTickReq).2.2 = none ∧
    (matchOrder stdBook offTickReq).1 = stdBook ∧
    offTickReq.quantity = 10 := by
  exact ⟨by decide, by decide, by decide, by decide⟩

/-- The standard book holding one resting bid (user 1, Buy 1500 ×100,
    order id 1) at price index 50. -/
def oneBidBook : TickBasedOrderBook :=
  (matchOrder stdBook ⟨1, "TEST", OrderType.Buy, 1500, 100⟩).1

/-- The occupancy of a level slot, observed as `none` for an out-of-range
    index, `some none` for an empty (`None`) slot, and `some (some n)` for
    a slot holding a queue of length `n`. -/
def slotLen (levels : List (Option (RingBuffer OrderNode))) (idx : Nat) :
    Option (Option Nat) :=
  (levels.get? idx).map (fun s => s.map (fun q => q.len))

/-- C9, counterexample: cancelling the only order at a level leaves the
    level slot `Some` of an EMPTY queue - `cancel_order` clears the bitmap
    bit but never writes `None` back into the level array - so
    `bids[i].is_some() ⇔ bids[i].len > 0` fails at index 50 after resting
    one bid at 1500 and cancelling it: the slot is `some` of a queue of
    length 0 while the bitmap bit is 0. -/
theorem c9_counterexample :
    slotLen (cancelOrder oneBidBook 1).1.bid_levels 50 = some (some 0) ∧
    (cancelOrder oneBidBook 1).1.bid_bitmap.get 50 = false ∧
    (cancelOrder oneBidBook 1).2 = Except.ok () := by
  exact ⟨by decide, by decide, rfl⟩

/-- C6: a `match_order` request whose price is outside
    `[min_price, max_price]` or not tick-aligned is rejected with an empty
    trade list and no confirmation, and the entire book state - both level
    arrays, both bitmaps, both best caches, the location map and the
    `next_order_id` counter - is unchanged: the source returns before
    mutating anything. -/
theorem c6_invalid_price_rejected (b : TickBasedOrderBook)
    (r : NewOrderRequest) (h : priceToIndex b.spec r.price = none) :
    matchOrder b r = (b, [], none) := by
  unfold matchOrder
  rw [h]

/-- Witness for C6 at scenario S4: the off-tick buy at 1505 on the fresh
    standard book. -/
theorem c6_witness : matchOrder stdBook offTickReq = (stdBook, [], none) :=
  c6_invalid_price_rejected stdBook offTickReq (by decide)

theorem buyWalk_zero (reqPrice uid nid : Nat) (sym : String)
    (spec : ContractSpec) (levels : List (Option (RingBuffer OrderNode)))
    (bm : FastBitmap) (locs : List (Nat × OrderLocation))
    (trades : List TradeNotification) (cur : Option Nat) :
    buyWalk reqPrice uid nid sym spec levels bm locs trades 0 cur
      = ⟨levels, bm, locs, trades, 0⟩ := by
  cases cur with
  | none => rfl
  | some idx =>
    show buyWalkAux reqPrice uid nid sym spec (bm.len + 1) levels bm locs
      trades 0 idx = _
    rw [buyWalkAux]
    rw [if_pos rfl]

theorem sellWalk_zero (reqPrice uid nid : Nat) (sym : String)
    (spec : ContractSpec) (levels : List (Option (RingBuffer OrderNode)))
    (bm : FastBitmap) (locs : List (Nat × OrderLocation))
    (trades : List TradeNotification) (cur : Option Nat) :
    sellWalk reqPrice uid nid sym spec levels bm locs trades 0 cur
      = ⟨levels, bm, locs, trades, 0⟩ := by
  cases cur with
  | none => rfl
  | some idx =>
    show sellWalkAux reqPrice uid nid sym spec (idx + 1) levels bm locs
      trades 0 idx = _
    rw [sellWalkAux]
    rw [if_pos rfl]

/-- C10: a zero-quantity request at a valid, tick-aligned price produces no
    trades and no confirmation and leaves level arrays, bitmaps, best
    caches and the location map unchanged, yet still consumes one order id.
    The best caches are recomputed from the bitmaps at the end of the walk,
    so the statement assumes the book's cache-coherence invariant
    (`best_bid_idx`/`best_ask_idx` equal the bitmap finders), under which
    the recomputation is the identity. -/
theorem c10_zero_quantity (b : TickBasedOrderBook) (r : NewOrderRequest)
    (idx : Nat) (hidx : priceToIndex b.spec r.price = some idx)
    (hq : r.quantity = 0)
    (hask : b.best_ask_idx = b.ask_bitmap.findFirstOne)
    (hbid : b.best_bid_idx = b.bid_bitmap.findLastOne) :
    matchOrder b r
      = ({ b with next_order_id := b.next_order_id + 1 }, [], none) := by
  unfold matchOrder
  rw [hidx]
  cases hot : r.order_type with
  | Buy =>
    simp only [hq, buyWalk_zero]
    rw [← hask]
    simp
  | Sell =>
    simp only [hq, sellWalk_zero]
    rw [← hbid]
    simp

/-- Witness for C10: a zero-quantity buy at 1500 on the standard book
    holding one resting bid consumes order id 2 and changes nothing else. -/
theorem c10_witness :
    matchOrder oneBidBook ⟨7, "TEST", OrderType.Buy, 1500, 0⟩
      = ({ oneBidBook with next_order_id := oneBidBook.next_order_id + 1 },
          [], none) :=
  c10_zero_quantity oneBidBook ⟨7, "TEST", OrderType.Buy, 1500, 0⟩ 50
    (by decide) rfl (by decide) (by decide)

/-! Lemmas about the matching loops: every generated trade carries the
    incoming order's id on the incoming side, and the traded quantities
    balance against the decrease of the remaining quantity. -/

theorem matchAskLevelAux_mem_trades (uid nid : Nat) (sym : String)
    (price : Nat) : ∀ (n : Nat) (q : RingBuffer OrderNode) (remaining : Nat)
    (locs : List (Nat × OrderLocation)) (trades : List TradeNotification)
    (t : TradeNotification),
    t ∈ (matchAskLevelAux uid nid sym price n q remaining locs trades).trades →
    t ∈ trades ∨ (t.buyer_order_id = nid ∧ t.buyer_user_id = uid) := by
  intro n
  induction n with
  | zero =>
    intro q remaining locs trades t ht
    exact Or.inl ht
  | succ n ih =>
    intro q remaining locs trades t ht
    cases hf : q.front with
    | none =>
      simp only [matchAskLevelAux, hf] at ht
      exact Or.inl ht
    | some co =>
      simp only [matchAskLevelAux, hf] at ht
      by_cases hrem : remaining = 0
      · rw [if_pos hrem] at ht
        exact Or.inl ht
      · rw [if_neg hrem] at ht
        by_cases hcan : co.cancelled = true
        · rw [if_pos hcan] at ht
          exact ih _ _ _ _ _ ht
        · rw [if_neg hcan] at ht
          by_cases hfull : co.quantity - min remaining co.quantity = 0
          · rw [if_pos hfull] at ht
            rcases ih _ _ _ _ _ ht with hin | hnew
            · rcases List.mem_append.mp hin with hin' | hin'
              · exact Or.inl hin'
              · right
                rcases List.mem_singleton.mp hin' with rfl
                exact ⟨rfl, rfl⟩
            · exact Or.inr hnew
          · rw [if_neg hfull] at ht
            rcases List.mem_append.mp ht with hin' | hin'
            · exact Or.inl hin'
            · right
              rcases List.mem_singleton.mp hin' with rfl
              exact ⟨rfl, rfl⟩

theorem matchBidLevelAux_mem_trades (uid nid : Nat) (sym : String)
    (price : Nat) : ∀ (n : Nat) (q : RingBuffer OrderNode) (remaining : Nat)
    (locs : List (Nat × OrderLocation)) (trades : List TradeNotification)
    (t : TradeNotification),
    t ∈ (matchBidLevelAux uid nid sym price n q remaining locs trades).trades →
    t ∈ trades ∨ (t.seller_order_id = nid ∧ t.seller_user_id = uid) := by
  intro n
  induction n with
  | zero =>
    intro q remaining locs trades t ht
    exact Or.inl ht
  | succ n ih =>
    intro q remaining locs trades t ht
    cases hf : q.front with
    | none =>
      simp only [matchBidLevelAux, hf] at ht
      exact Or.inl ht
    | some co =>
      simp only [matchBidLevelAux, hf] at ht
      by_cases hrem : remaining = 0
      · rw [if_pos hrem] at ht
        exact Or.inl ht
      · rw [if_neg hrem] at ht
        by_cases hcan : co.cancelled = true
        · rw [if_pos hcan] at ht
          exact ih _ _ _ _ _ ht
        · rw [if_neg hcan] at ht
          by_cases hfull : co.quantity - min remaining co.quantity = 0
          · rw [if_pos hfull] at ht
            rcases ih _ _ _ _ _ ht with hin | hnew
            · rcases List.mem_append.mp hin with hin' | hin'
              · exact Or.inl hin'
              · right
                rcases List.mem_singleton.mp hin' with rfl
                exact ⟨rfl, rfl⟩
            · exact Or.inr hnew
          · rw [if_neg hfull] at ht
            rcases List.mem_append.mp ht with hin' | hin'
            · exact Or.inl hin'
            · right
              rcases List.mem_singleton.mp hin' with rfl
              exact ⟨rfl, rfl⟩

theorem matchAskLevelAux_qty_sum (uid nid : Nat) (sym : String)
    (price : Nat) : ∀ (n : Nat) (q : RingBuffer OrderNode) (remaining : Nat)
    (locs : List (Nat × OrderLocation)) (trades : List TradeNotification),
    (((matchAskLevelAux uid nid sym price n q remaining locs trades).trades.map
        (fun t => t.matched_quantity)).sum
      + (matchAskLevelAux uid nid sym price n q remaining locs trades).remaining)
    = ((trades.map (fun t => t.matched_quantity)).sum + remaining) := by
  intro n
  induction n with
  | zero =>
    intro q remaining locs trades
    rfl
  | succ n ih =>
    intro q remaining locs trades
    cases hf : q.front with
    | none => simp only [matchAskLevelAux, hf]
    | some co =>
      simp only [matchAskLevelAux, hf]
      by_cases hrem : remaining = 0
      · rw [if_pos hrem]
      · rw [if_neg hrem]
        by_cases hfull : co.quantity - min remaining co.quantity = 0
        · by_cases hcan : co.cancelled = true
          · rw [if_pos hcan]
            exact ih _ _ _ _
          · rw [if_neg hcan, if_pos hfull, ih]
            simp only [List.map_append, List.sum_append, List.map_cons,
              List.sum_cons, List.map_nil, List.sum_nil]
            have : min remaining co.quantity ≤ remaining := Nat.min_le_left _ _
            omega
        · by_cases hcan : co.cancelled = true
          · rw [if_pos hcan]
            exact ih _ _ _ _
          · rw [if_neg hcan, if_neg hfull]
            simp only [List.map_append, List.sum_append, List.map_cons,
              List.sum_cons, List.map_nil, List.sum_nil]
            have : min remaining co.quantity ≤ remaining := Nat.min_le_left _ _
            omega

theorem matchBidLevelAux_qty_sum (uid nid : Nat) (sym : String)
    (price : Nat) : ∀ (n : Nat) (q : RingBuffer OrderNode) (remaining : Nat)
    (locs : List (Nat × OrderLocation)) (trades : List TradeNotification),
    (((matchBidLevelAux uid nid sym price n q remaining locs trades).trades.map
        (fun t => t.matched_quantity)).sum
      + (matchBidLevelAux uid nid sym price n q remaining locs trades).remaining)
    = ((trades.map (fun t => t.matched_quantity)).sum + remaining) := by
  intro n
  induction n with
  | zero =>
    intro q remaining locs trades
    rfl
  | succ n ih =>
    intro q remaining locs trades
    cases hf : q.front with
    | none => simp only [matchBidLevelAux, hf]
    | some co =>
      simp only [matchBidLevelAux, hf]
      by_cases hrem : remaining = 0
      · rw [if_pos hrem]
      · rw [if_neg hrem]
        by_cases hfull : co.quantity - min remaining co.quantity = 0
        · by_cases hcan : co.cancelled = true
          · rw [if_pos hcan]
            exact ih _ _ _ _
          · rw [if_neg hcan, if_pos hfull, ih]
            simp only [List.map_append, List.sum_append, List.map_cons,
              List.sum_cons, List.map_nil, List.sum_nil]
            have : min remaining co.quantity ≤ remaining := Nat.min_le_left _ _
            omega
        · by_cases hcan : co.cancelled = true
          · rw [if_pos hcan]
            exact ih _ _ _ _
          · rw [if_neg hcan, if_neg hfull]
            simp only [List.map_append, List.sum_append, List.map_cons,
              List.sum_cons, List.map_nil, List.sum_nil]
            have : min remaining co.quantity ≤ remaining := Nat.min_le_left _ _
            omega

theorem buyStep_mem_trades (uid nid : Nat) (sym : String) (spec : ContractSpec)
    (levels : List (Option (RingBuffer OrderNode))) (bm : FastBitmap)
    (locs : List (Nat × OrderLocation)) (trades : List TradeNotification)
    (remaining idx : Nat) (t : TradeNotification)
    (ht : t ∈ (buyStep uid nid sym spec levels bm locs trades remaining idx).trades) :
    t ∈ trades ∨ (t.buyer_order_id = nid ∧ t.buyer_user_id = uid) := by
  unfold buyStep at ht
  split at ht
  · dsimp only at ht
    split at ht
    · exact matchAskLevelAux_mem_trades uid nid sym _ _ _ _ _ _ _ ht
    · exact matchAskLevelAux_mem_trades uid nid sym _ _ _ _ _ _ _ ht
  · exact Or.inl ht

theorem sellStep_mem_trades (uid nid : Nat) (sym : String) (spec : ContractSpec)
    (levels : List (Option (RingBuffer OrderNode))) (bm : FastBitmap)
    (locs : List (Nat × OrderLocation)) (trades : List TradeNotification)
    (remaining idx : Nat) (t : TradeNotification)
    (ht : t ∈ (sellStep uid nid sym spec levels bm locs trades remaining idx).trades) :
    t ∈ trades ∨ (t.seller_order_id = nid ∧ t.seller_user_id = uid) := by
  unfold sellStep at ht
  split at ht
  · dsimp only at ht
    split at ht
    · exact matchBidLevelAux_mem_trades uid nid sym _ _ _ _ _ _ _ ht
    · exact matchBidLevelAux_mem_trades uid nid sym _ _ _ _ _ _ _ ht
  · exact Or.inl ht

theorem buyStep_qty_sum (uid nid : Nat) (sym : String) (spec : ContractSpec)
    (levels : List (Option (RingBuffer OrderNode))) (bm : FastBitmap)
    (locs : List (Nat × OrderLocation)) (trades : List TradeNotification)
    (remaining idx : Nat) :
    (((buyStep uid nid sym spec levels bm locs trades remaining idx).trades.map
        (fun t => t.matched_quantity)).sum
      + (buyStep uid nid sym spec levels bm locs trades remaining idx).remaining)
    = ((trades.map (fun t => t.matched_quantity)).sum + remaining) := by
  unfold buyStep
  split
  · dsimp only
    split
    · exact matchAskLevelAux_qty_sum uid nid sym _ _ _ _ _ _
    · exact matchAskLevelAux_qty_sum uid nid sym _ _ _ _ _ _
  · rfl

theorem sellStep_qty_sum (uid nid : Nat) (sym : String) (spec : ContractSpec)
    (levels : List (Option (RingBuffer OrderNode))) (bm : FastBitmap)
    (locs : List (Nat × OrderLocation)) (trades : List TradeNotification)
    (remaining idx : Nat) :
    (((sellStep uid nid sym spec levels bm locs trades remaining idx).trades.map
        (fun t => t.matched_quantity)).sum
      + (sellStep uid nid sym spec levels bm locs trades remaining idx).remaining)
    = ((trades.map (fun t => t.matched_quantity)).sum + remaining) := by
  unfold sellStep
  split
  · dsimp only
    split
    · exact matchBidLevelAux_qty_sum uid nid sym _ _ _ _ _ _
    · exact matchBidLevelAux_qty_sum uid nid sym _ _ _ _ _ _
  · rfl

theorem buyWalkAux_mem_trades (reqPrice uid nid : Nat) (sym : String)
    (spec : ContractSpec) : ∀ (n : Nat)
    (levels : List (Option (RingBuffer OrderNode))) (bm : FastBitmap)
    (locs : List (Nat × OrderLocation)) (trades : List TradeNotification)
    (remaining idx : Nat) (t : TradeNotification),
    t ∈ (buyWalkAux reqPrice uid nid sym spec n levels bm locs trades
      remaining idx).trades →
    t ∈ trades ∨ (t.buyer_order_id = nid ∧ t.buyer_user_id = uid) := by
  intro n
  induction n with
  | zero =>
    intro levels bm locs trades remaining idx t ht
    simp only [buyWalkAux] at ht
    by_cases hrem : remaining = 0
    · rw [if_pos hrem] at ht
      exact Or.inl ht
    · rw [if_neg hrem] at ht
      by_cases hpr : indexToPrice spec idx > reqPrice
      · rw [if_pos hpr] at ht
        exact Or.inl ht
      · rw [if_neg hpr] at ht
        exact buyStep_mem_trades uid nid sym spec _ _ _ _ _ _ _ ht
  | succ n ih =>
    intro levels bm locs trades remaining idx t ht
    simp only [buyWalkAux] at ht
    by_cases hrem : remaining = 0
    · rw [if_pos hrem] at ht
      exact Or.inl ht
    · rw [if_neg hrem] at ht
      by_cases hpr : indexToPrice spec idx > reqPrice
      · rw [if_pos hpr] at ht
        exact Or.inl ht
      · rw [if_neg hpr] at ht
        cases hnext : (buyStep uid nid sym spec levels bm locs trades remaining
            idx).bm.findNextOne idx with
        | none =>
          rw [hnext] at ht
          exact buyStep_mem_trades uid nid sym spec _ _ _ _ _ _ _ ht
        | some nxt =>
          rw [hnext] at ht
          rcases ih _ _ _ _ _ _ _ ht with hin | hnew
          · exact buyStep_mem_trades uid nid sym spec _ _ _ _ _ _ _ hin
          · exact Or.inr hnew

theorem sellWalkAux_mem_trades (reqPrice uid nid : Nat) (sym : String)
    (spec : ContractSpec) : ∀ (n : Nat)
    (levels : List (Option (RingBuffer OrderNode))) (bm : FastBitmap)
    (locs : List (Nat × OrderLocation)) (trades : List TradeNotification)
    (remaining idx : Nat) (t : TradeNotification),
    t ∈ (sellWalkAux reqPrice uid nid sym spec n levels bm locs trades
      remaining idx).trades →
    t ∈ trades ∨ (t.seller_order_id = nid ∧ t.seller_user_id = uid) := by
  intro n
  induction n with
  | zero =>
    intro levels bm locs trades remaining idx t ht
    simp only [sellWalkAux] at ht
    by_cases hrem : remaining = 0
    · rw [if_pos hrem] at ht
      exact Or.inl ht
    · rw [if_neg hrem] at ht
      by_cases hpr : indexToPrice spec idx < reqPrice
      · rw [if_pos hpr] at ht
        exact Or.inl ht
      · rw [if_neg hpr] at ht
        exact sellStep_mem_trades uid nid sym spec _ _ _ _ _ _ _ ht
  | succ n ih =>
    intro levels bm locs trades remaining idx t ht
    simp only [sellWalkAux] at ht
    by_cases hrem : remaining = 0
    · rw [if_pos hrem] at ht
      exact Or.inl ht
    · rw [if_neg hrem] at ht
      by_cases hpr : indexToPrice spec idx < reqPrice
      · rw [if_pos hpr] at ht
        exact Or.inl ht
      · rw [if_neg hpr] at ht
        cases hnext : (sellStep uid nid sym spec levels bm locs trades remaining
            idx).bm.findPrevOne idx with
        | none =>
          rw [hnext] at ht
          exact sellStep_mem_trades uid nid sym spec _ _ _ _ _ _ _ ht
        | some nxt =>
          rw [hnext] at ht
          rcases ih _ _ _ _ _ _ _ ht with hin | hnew
          · exact sellStep_mem_trades uid nid sym spec _ _ _ _ _ _ _ hin
          · exact Or.inr hnew

theorem buyWalkAux_qty_sum (reqPrice uid nid : Nat) (sym : String)
    (spec : ContractSpec) : ∀ (n : Nat)
    (levels : List (Option (RingBuffer OrderNode))) (bm : FastBitmap)
    (locs : List (Nat × OrderLocation)) (trades : List TradeNotification)
    (remaining idx : Nat),
    (((buyWalkAux reqPrice uid nid sym spec n levels bm locs trades remaining
        idx).trades.map (fun t => t.matched_quantity)).sum
      + (buyWalkAux reqPrice uid nid sym spec n levels bm locs trades remaining
        idx).remaining)
    = ((trades.map (fun t => t.matched_quantity)).sum + remaining) := by
  intro n
  induction n with
  | zero =>
    intro levels bm locs trades remaining idx
    simp only [buyWalkAux]
    by_cases hrem : remaining = 0
    · rw [if_pos hrem]
    · rw [if_neg hrem]
      by_cases hpr : indexToPrice spec idx > reqPrice
      · rw [if_pos hpr]
      · rw [if_neg hpr]
        exact buyStep_qty_sum uid nid sym spec _ _ _ _ _ _
  | succ n ih =>
    intro levels bm locs trades remaining idx
    simp only [buyWalkAux]
    by_cases hrem : remaining = 0
    · rw [if_pos hrem]
    · rw [if_neg hrem]
      by_cases hpr : indexToPrice spec idx > reqPrice
      · rw [if_pos hpr]
      · rw [if_neg hpr]
        cases hnext : (buyStep uid nid sym spec levels bm locs trades remaining
            idx).bm.findNextOne idx with
        | none =>
          simp only [hnext]
          exact buyStep_qty_sum uid nid sym spec _ _ _ _ _ _
        | some nxt =>
          simp only [hnext]
          rw [ih]
          exact buyStep_qty_sum uid nid sym spec _ _ _ _ _ _

theorem sellWalkAux_qty_sum (reqPrice uid nid : Nat) (sym : String)
    (spec : ContractSpec) : ∀ (n : Nat)
    (levels : List (Option (RingBuffer OrderNode))) (bm : FastBitmap)
    (locs : List (Nat × OrderLocation)) (trades : List TradeNotification)
    (remaining idx : Nat),
    (((sellWalkAux reqPrice uid nid sym spec n levels bm locs trades remaining
        idx).trades.map (fun t => t.matched_quantity)).sum
      + (sellWalkAux reqPrice uid nid sym spec n levels bm locs trades remaining
        idx).remaining)
    = ((trades.map (fun t => t.matched_quantity)).sum + remaining) := by
  intro n
  induction n with
  | zero =>
    intro levels bm locs trades remaining idx
    simp only [sellWalkAux]
    by_cases hrem : remaining = 0
    · rw [if_pos hrem]
    · rw [if_neg hrem]
      by_cases hpr : indexToPrice spec idx < reqPrice
      · rw [if_pos hpr]
      · rw [if_neg hpr]
        exact sellStep_qty_sum uid nid sym spec _ _ _ _ _ _
  | succ n ih =>
    intro levels bm locs trades remaining idx
    simp only [sellWalkAux]
    by_cases hrem : remaining = 0
    · rw [if_pos hrem]
    · rw [if_neg hrem]
      by_cases hpr : indexToPrice spec idx < reqPrice
      · rw [if_pos hpr]
      · rw [if_neg hpr]
        cases hnext : (sellStep uid nid sym spec levels bm locs trades remaining
            idx).bm.findPrevOne idx with
        | none =>
          simp only [hnext]
          exact sellStep_qty_sum uid nid sym spec _ _ _ _ _ _
        | some nxt =>
          simp only [hnext]
          rw [ih]
          exact sellStep_qty_sum uid nid sym spec _ _ _ _ _ _

theorem buyWalk_mem_trades (reqPrice uid nid : Nat) (sym : String)
    (spec : ContractSpec) (levels : List (Option (RingBuffer OrderNode)))
    (bm : FastBitmap) (locs : List (Nat × OrderLocation))
    (trades : List TradeNotification) (remaining : Nat) (cur : Option Nat)
    (t : TradeNotification)
    (ht : t ∈ (buyWalk reqPrice uid nid sym spec levels bm locs trades
      remaining cur).trades) :
    t ∈ trades ∨ (t.buyer_order_id = nid ∧ t.buyer_user_id = uid) := by
  cases cur with
  | none => exact Or.inl ht
  | some idx =>
    exact buyWalkAux_mem_trades reqPrice uid nid sym spec _ _ _ _ _ _ _ _ ht

theorem sellWalk_mem_trades (reqPrice uid nid : Nat) (sym : String)
    (spec : ContractSpec) (levels : List (Option (RingBuffer OrderNode)))
    (bm : FastBitmap) (locs : List (Nat × OrderLocation))
    (trades : List TradeNotification) (remaining : Nat) (cur : Option Nat)
    (t : TradeNotification)
    (ht : t ∈ (sellWalk reqPrice uid nid sym spec levels bm locs trades
      remaining cur).trades) :
    t ∈ trades ∨ (t.seller_order_id = nid ∧ t.seller_user_id = uid) := by
  cases cur with
  | none => exact Or.inl ht
  | some idx =>
    exact sellWalkAux_mem_trades reqPrice uid nid sym spec _ _ _ _ _ _ _ _ ht

theorem buyWalk_qty_sum (reqPrice uid nid : Nat) (sym : String)
    (spec : ContractSpec) (levels : List (Option (RingBuffer OrderNode)))
    (bm : FastBitmap) (locs : List (Nat × OrderLocation))
    (trades : List TradeNotification) (remaining : Nat) (cur : Option Nat) :
    (((buyWalk reqPrice uid nid sym spec levels bm locs trades remaining
        cur).trades.map (fun t => t.matched_quantity)).sum
      + (buyWalk reqPrice uid nid sym spec levels bm locs trades remaining
        cur).remaining)
    = ((trades.map (fun t => t.matched_quantity)).sum + remaining) := by
  cases cur with
  | none => rfl
  | some idx => exact buyWalkAux_qty_sum reqPrice uid nid sym spec _ _ _ _ _ _ _

theorem sellWalk_qty_sum (reqPrice uid nid : Nat) (sym : String)
    (spec : ContractSpec) (levels : List (Option (RingBuffer OrderNode)))
    (bm : FastBitmap) (locs : List (Nat × OrderLocation))
    (trades : List TradeNotification) (remaining : Nat) (cur : Option Nat) :
    (((sellWalk reqPrice uid nid sym spec levels bm locs trades remaining
        cur).trades.map (fun t => t.matched_quantity)).sum
      + (sellWalk reqPrice uid nid sym spec levels bm locs trades remaining
        cur).remaining)
    = ((trades.map (fun t => t.matched_quantity)).sum + remaining) := by
  cases cur with
  | none => rfl
  | some idx => exact sellWalkAux_qty_sum reqPrice uid nid sym spec _ _ _ _ _ _ _

theorem addBidOrder_next_order_id (b : TickBasedOrderBook)
    (idx uid quantity orderId : Nat) :
    (addBidOrder b idx uid quantity orderId).next_order_id
      = b.next_order_id := by
  unfold addBidOrder
  dsimp only
  split <;> rfl

theorem addAskOrder_next_order_id (b : TickBasedOrderBook)
    (idx uid quantity orderId : Nat) :
    (addAskOrder b idx uid quantity orderId).next_order_id
      = b.next_order_id := by
  unfold addAskOrder
  dsimp only
  split <;> rfl

/-- The incoming side's order id of a trade: for an incoming Buy the buyer
    order id, for an incoming Sell the seller order id. -/
def incomingSideId : OrderType → TradeNotification → Nat
  | OrderType.Buy, t => t.buyer_order_id
  | OrderType.Sell, t => t.seller_order_id

/-- C4 (amended): for every `match_order` call whose price maps to a valid
    index, the counter advances by exactly one, the drawn id is the
    incoming side's order id of every emitted trade, and the confirmation
    (when returned) carries that id and the submitter.  (A call rejected
    for invalid price leaves the counter unchanged; see
    `c4_counterexample` and C6.) -/
theorem c4_order_id_amended (b : TickBasedOrderBook) (r : NewOrderRequest)
    (idx : Nat) (h : priceToIndex b.spec r.price = some idx) :
    (matchOrder b r).1.next_order_id = b.next_order_id + 1 ∧
    (∀ t ∈ (matchOrder b r).2.1,
      incomingSideId r.order_type t = b.next_order_id) ∧
    (∀ c, (matchOrder b r).2.2 = some c →
      c.order_id = b.next_order_id ∧ c.user_id = r.user_id) := by
  unfold matchOrder
  rw [h]
  cases hot : r.order_type with
  | Buy =>
    dsimp only
    refine ⟨?_, ?_, ?_⟩
    · split
      · rw [addBidOrder_next_order_id]
      · rfl
    · intro t ht
      rcases buyWalk_mem_trades _ _ _ _ _ _ _ _ _ _ _ _ ht with h0 | hp
      · exact absurd h0 (List.not_mem_nil t)
      · exact hp.1
    · intro c hc
      split at hc
      · rcases Option.some.injEq .. ▸ hc with rfl
        exact ⟨rfl, rfl⟩
      · exact Option.noConfusion hc
  | Sell =>
    dsimp only
    refine ⟨?_, ?_, ?_⟩
    · split
      · rw [addAskOrder_next_order_id]
      · rfl
    · intro t ht
      rcases sellWalk_mem_trades _ _ _ _ _ _ _ _ _ _ _ _ ht with h0 | hp
      · exact absurd h0 (List.not_mem_nil t)
      · exact hp.1
    · intro c hc
      split at hc
      · rcases Option.some.injEq .. ▸ hc with rfl
        exact ⟨rfl, rfl⟩
      · exact Option.noConfusion hc

/-- Witness for C4 at a concrete valid call: resting the first buy on the
    fresh standard book draws id 1, increments the counter to 2, and the
    confirmation carries id 1 and user 1. -/
theorem c4_witness :
    (matchOrder stdBook ⟨1, "TEST", OrderType.Buy, 1500, 100⟩).1.next_order_id
        = stdBook.next_order_id + 1 ∧
    (∀ t ∈ (matchOrder stdBook ⟨1, "TEST", OrderType.Buy, 1500, 100⟩).2.1,
      incomingSideId OrderType.Buy t = stdBook.next_order_id) ∧
    (∀ c, (matchOrder stdBook ⟨1, "TEST", OrderType.Buy, 1500, 100⟩).2.2
        = some c → c.order_id = stdBook.next_order_id ∧ c.user_id = 1) :=
  c4_order_id_amended stdBook ⟨1, "TEST", OrderType.Buy, 1500, 100⟩ 50
    (by decide)

/-- The matching phase of a Buy `match_order` call: the outer walk over the
    ask side, started from the cached best ask, with the drawn order id
    `b.next_order_id` (the walk itself never reads the counter). -/
def buyPhase (b : TickBasedOrderBook) (r : NewOrderRequest) : WalkOut :=
  buyWalk r.price r.user_id b.next_order_id r.symbol b.spec b.ask_levels
    b.ask_bitmap b.order_locations [] r.quantity b.best_ask_idx

/-- The matching phase of a Sell `match_order` call: the walk over the bid
    side. -/
def sellPhase (b : TickBasedOrderBook) (r : NewOrderRequest) : WalkOut :=
  sellWalk r.price r.user_id b.next_order_id r.symbol b.spec b.bid_levels
    b.bid_bitmap b.order_locations [] r.quantity b.best_bid_idx

/-- The residual quantity left after the matching walk of a `match_order`
    call (0 for a rejected price): this is the quantity that rests as a new
    order when positive and the level queue has room, and that is dropped
    on queue overflow. -/
def matchResidual (b : TickBasedOrderBook) (r : NewOrderRequest) : Nat :=
  match priceToIndex b.spec r.price with
  | none => 0
  | some _ =>
    match r.order_type with
    | OrderType.Buy => (buyPhase b r).remaining
    | OrderType.Sell => (sellPhase b r).remaining

/-- C7 (amended): for every `match_order` call whose price maps to a valid
    index, the sum of `matched_quantity` over the emitted trades plus the
    residual quantity after the matching walk equals the requested
    quantity; moreover a confirmation is returned exactly when that
    residual is positive.  (For an invalid price the sum is 0 and nothing
    rests; see `c7_counterexample`.) -/
theorem c7_conservation_amended (b : TickBasedOrderBook)
    (r : NewOrderRequest) (idx : Nat)
    (h : priceToIndex b.spec r.price = some idx) :
    ((matchOrder b r).2.1.map (fun t => t.matched_quantity)).sum
        + matchResidual b r = r.quantity ∧
    ((matchOrder b r).2.2.isSome ↔ 0 < matchResidual b r) := by
  unfold matchOrder matchResidual
  rw [h]
  cases hot : r.order_type with
  | Buy =>
    dsimp only
    constructor
    · have := buyWalk_qty_sum r.price r.user_id b.next_order_id r.symbol
        b.spec b.ask_levels b.ask_bitmap b.order_locations [] r.quantity
        b.best_ask_idx
      simpa [buyPhase] using this
    · unfold buyPhase
      split
      · rename_i hpos
        simpa using hpos
      · rename_i hpos
        simpa using hpos
  | Sell =>
    dsimp only
    constructor
    · have := sellWalk_qty_sum r.price r.user_id b.next_order_id r.symbol
        b.spec b.bid_levels b.bid_bitmap b.order_locations [] r.quantity
        b.best_bid_idx
      simpa [sellPhase] using this
    · unfold sellPhase
      split
      · rename_i hpos
        simpa using hpos
      · rename_i hpos
        simpa using hpos

/-- Witness for C7 at scenario S2's crossing order: the buy for 120 against
    150 resting at one level trades 120 and leaves residual 0. -/
theorem c7_witness :
    ((matchOrder stdBook ⟨1, "TEST", OrderType.Buy, 1500, 100⟩).2.1.map
        (fun t => t.matched_quantity)).sum
      + matchResidual stdBook ⟨1, "TEST", OrderType.Buy, 1500, 100⟩ = 100 ∧
    ((matchOrder stdBook ⟨1, "TEST", OrderType.Buy, 1500, 100⟩).2.2.isSome
      ↔ 0 < matchResidual stdBook ⟨1, "TEST", OrderType.Buy, 1500, 100⟩) :=
  c7_conservation_amended stdBook ⟨1, "TEST", OrderType.Buy, 1500, 100⟩ 50
    (by decide)

theorem addBidOrder_full (b : TickBasedOrderBook)
    (idx uid quantity orderId : Nat)
    (hfull : (getOrInsertQueue b.bid_levels idx b.spec.queue_capacity).capacity
      ≤ (getOrInsertQueue b.bid_levels idx b.spec.queue_capacity).len) :
    addBidOrder b idx uid quantity orderId
      = { b with
          bid_levels := b.bid_levels.set idx
            (some (getOrInsertQueue b.bid_levels idx b.spec.queue_capacity)),
          bid_bitmap := b.bid_bitmap.set idx true,
          best_bid_idx := bestUp b.best_bid_idx idx } := by
  unfold addBidOrder
  dsimp only
  rw [RingBuffer.push_none.mpr hfull]

theorem addAskOrder_full (b : TickBasedOrderBook)
    (idx uid quantity orderId : Nat)
    (hfull : (getOrInsertQueue b.ask_levels idx b.spec.queue_capacity).capacity
      ≤ (getOrInsertQueue b.ask_levels idx b.spec.queue_capacity).len) :
    addAskOrder b idx uid quantity orderId
      = { b with
          ask_levels := b.ask_levels.set idx
            (some (getOrInsertQueue b.ask_levels idx b.spec.queue_capacity)),
          ask_bitmap := b.ask_bitmap.set idx true,
          best_ask_idx := bestDown b.best_ask_idx idx } := by
  unfold addAskOrder
  dsimp only
  rw [RingBuffer.push_none.mpr hfull]

theorem addBidOrder_full_locs (b : TickBasedOrderBook)
    (idx uid quantity orderId : Nat)
    (hfull : (getOrInsertQueue b.bid_levels idx b.spec.queue_capacity).capacity
      ≤ (getOrInsertQueue b.bid_levels idx b.spec.queue_capacity).len) :
    (addBidOrder b idx uid quantity orderId).order_locations
      = b.order_locations := by
  rw [addBidOrder_full b idx uid quantity orderId hfull]

theorem addBidOrder_full_levels (b : TickBasedOrderBook)
    (idx uid quantity orderId : Nat)
    (hfull : (getOrInsertQueue b.bid_levels idx b.spec.queue_capacity).capacity
      ≤ (getOrInsertQueue b.bid_levels idx b.spec.queue_capacity).len) :
    (addBidOrder b idx uid quantity orderId).bid_levels
      = b.bid_levels.set idx
          (some (getOrInsertQueue b.bid_levels idx b.spec.queue_capacity)) := by
  rw [addBidOrder_full b idx uid quantity orderId hfull]

theorem addAskOrder_full_locs (b : TickBasedOrderBook)
    (idx uid quantity orderId : Nat)
    (hfull : (getOrInsertQueue b.ask_levels idx b.spec.queue_capacity).capacity
      ≤ (getOrInsertQueue b.ask_levels idx b.spec.queue_capacity).len) :
    (addAskOrder b idx uid quantity orderId).order_locations
      = b.order_locations := by
  rw [addAskOrder_full b idx uid quantity orderId hfull]

theorem addAskOrder_full_levels (b : TickBasedOrderBook)
    (idx uid quantity orderId : Nat)
    (hfull : (getOrInsertQueue b.ask_levels idx b.spec.queue_capacity).capacity
      ≤ (getOrInsertQueue b.ask_levels idx b.spec.queue_capacity).len) :
    (addAskOrder b idx uid quantity orderId).ask_levels
      = b.ask_levels.set idx
          (some (getOrInsertQueue b.ask_levels idx b.spec.queue_capacity)) := by
  rw [addAskOrder_full b idx uid quantity orderId hfull]

/-- C5 (amended): when the residual of a `match_order` call cannot be
    inserted because the price-level queue is full, the residual is indeed
    dropped - the level keeps its queue unchanged and no id → location
    entry is recorded - but, contrary to the claim, a confirmation IS
    returned to the caller (the source decides the confirmation from
    `remaining > 0` alone, which the failed push does not reset). -/
theorem c5_overflow_amended (b : TickBasedOrderBook) (r : NewOrderRequest)
    (idx : Nat) (h : priceToIndex b.spec r.price = some idx) :
    (r.order_type = OrderType.Buy →
      0 < (buyPhase b r).remaining →
      (getOrInsertQueue b.bid_levels idx b.spec.queue_capacity).capacity
        ≤ (getOrInsertQueue b.bid_levels idx b.spec.queue_capacity).len →
      (matchOrder b r).2.2 = some ⟨r.user_id, b.next_order_id⟩ ∧
      (matchOrder b r).1.order_locations = (buyPhase b r).locs ∧
      (matchOrder b r).1.bid_levels = b.bid_levels.set idx
        (some (getOrInsertQueue b.bid_levels idx b.spec.queue_capacity))) ∧
    (r.order_type = OrderType.Sell →
      0 < (sellPhase b r).remaining →
      (getOrInsertQueue b.ask_levels idx b.spec.queue_capacity).capacity
        ≤ (getOrInsertQueue b.ask_levels idx b.spec.queue_capacity).len →
      (matchOrder b r).2.2 = some ⟨r.user_id, b.next_order_id⟩ ∧
      (matchOrder b r).1.order_locations = (sellPhase b r).locs ∧
      (matchOrder b r).1.ask_levels = b.ask_levels.set idx
        (some (getOrInsertQueue b.ask_levels idx b.spec.queue_capacity))) := by
  constructor
  · intro hbuy hpos hfull
    unfold matchOrder
    rw [h, hbuy]
    dsimp only
    split
    · exact ⟨rfl, addBidOrder_full_locs _ idx _ _ _ hfull,
        addBidOrder_full_levels _ idx _ _ _ hfull⟩
    · rename_i hneg
      exact absurd hpos hneg
  · intro hsell hpos hfull
    unfold matchOrder
    rw [h, hsell]
    dsimp only
    split
    · exact ⟨rfl, addAskOrder_full_locs _ idx _ _ _ hfull,
        addAskOrder_full_levels _ idx _ _ _ hfull⟩
    · rename_i hneg
      exact absurd hpos hneg

/-- A book with per-level capacity 1 (all `ContractSpec` fields are public
    in the source, so such a spec is constructible). -/
def cap1Book : TickBasedOrderBook :=
  TickBasedOrderBook.make ⟨"TEST", 10, 1000, 2000, 1⟩

/-- The capacity-1 book holding one resting bid at 1500 (order id 1), so
    the level queue at index 50 is full. -/
def cap1BookFull : TickBasedOrderBook :=
  (matchOrder cap1Book ⟨1, "TEST", OrderType.Buy, 1500, 10⟩).1

/-- The second buy at 1500 on the full capacity-1 book: its residual push
    fails. -/
def c5Req : NewOrderRequest := ⟨2, "TEST", OrderType.Buy, 1500, 10⟩

/-- C5, counterexample: with a full level queue the residual is dropped -
    the level still holds exactly one order and id 2 is not in the location
    map - yet `match_order` DOES return a confirmation `{user 2, order id
    2}`, contradicting the claim's "no confirmation is returned". -/
theorem c5_counterexample :
    (matchOrder cap1BookFull c5Req).2.2 = some ⟨2, 2⟩ ∧
    slotLen (matchOrder cap1BookFull c5Req).1.bid_levels 50 = some (some 1) ∧
    locFind (matchOrder cap1BookFull c5Req).1.order_locations 2 = none := by
  exact ⟨by decide, by decide, by decide⟩

/-- Witness for C5 (amended) on the capacity-1 book. -/
theorem c5_witness :
    (matchOrder cap1BookFull c5Req).2.2
        = some ⟨c5Req.user_id, cap1BookFull.next_order_id⟩ ∧
    (matchOrder cap1BookFull c5Req).1.order_locations
        = (buyPhase cap1BookFull c5Req).locs ∧
    (matchOrder cap1BookFull c5Req).1.bid_levels
        = cap1BookFull.bid_levels.set 50
            (some (getOrInsertQueue cap1BookFull.bid_levels 50
              cap1BookFull.spec.queue_capacity)) :=
  (c5_overflow_amended cap1BookFull c5Req 50 (by decide)).1 rfl (by decide)
    (by decide)

/-! FIFO within a price level: the i-th trade emitted while filling at one
    level goes to the i-th non-cancelled order of that level's queue. -/

theorem matchAskLevelAux_fifo (uid nid : Nat) (sym : String) (price : Nat) :
    ∀ (n : Nat) (q : RingBuffer OrderNode) (remaining : Nat)
      (locs : List (Nat × OrderLocation)) (trades : List TradeNotification),
      n = q.len → q.WF →
      ∃ new,
        (matchAskLevelAux uid nid sym price n q remaining locs trades).trades
          = trades ++ new ∧
        new.map (fun t => t.seller_order_id)
          = ((q.toList.filter (fun o => !o.cancelled)).map
              (fun o => o.order_id)).take new.length := by
  intro n
  induction n with
  | zero =>
    intro q remaining locs trades hn hwf
    refine ⟨[], by simp [matchAskLevelAux], ?_⟩
    simp
  | succ n ih =>
    intro q remaining locs trades hn hwf
    cases hf : q.front with
    | none =>
      exfalso
      have := RingBuffer.front_none_len hwf hf
      omega
    | some co =>
      have htl : q.toList = co :: (q.pop).2.toList := RingBuffer.toList_eq_cons hf
      have hlen0 : q.len ≠ 0 := RingBuffer.front_some_len hf
      have hwf' : (q.pop).2.WF := RingBuffer.wf_pop hwf hlen0
      have hn' : n = (q.pop).2.len := by
        rw [RingBuffer.pop_snd_len _ hlen0]
        omega
      by_cases hrem : remaining = 0
      · refine ⟨[], ?_, by simp⟩
        simp [matchAskLevelAux, hf, hrem]
      · by_cases hcan : co.cancelled = true
        · obtain ⟨new, h1, h2⟩ := ih (q.pop).2 remaining
            (locErase locs co.order_id) trades hn' hwf'
          refine ⟨new, ?_, ?_⟩
          · simp only [matchAskLevelAux, hf, if_neg hrem, if_pos hcan]
            exact h1
          · rw [htl, h2]
            simp [List.filter_cons, hcan]
        · have hcan' : co.cancelled = false := by
            cases hco : co.cancelled
            · rfl
            · exact absurd hco hcan
          by_cases hfull : co.quantity - min remaining co.quantity = 0
          · obtain ⟨new, h1, h2⟩ := ih (q.pop).2
              (remaining - min remaining co.quantity)
              (locErase locs co.order_id)
              (trades ++ [⟨0, sym, price, min remaining co.quantity, uid, nid,
                co.user_id, co.order_id, 0⟩]) hn' hwf'
            refine ⟨⟨0, sym, price, min remaining co.quantity, uid, nid,
              co.user_id, co.order_id, 0⟩ :: new, ?_, ?_⟩
            · simp only [matchAskLevelAux, hf, if_neg hrem, if_neg hcan,
                if_pos hfull]
              rw [h1, List.append_assoc]
              rfl
            · rw [htl]
              simp only [List.map_cons, List.length_cons, List.filter_cons,
                hcan', Bool.not_false, if_true, List.take_succ_cons]
              rw [h2]
          · refine ⟨[⟨0, sym, price, min remaining co.quantity, uid, nid,
              co.user_id, co.order_id, 0⟩], ?_, ?_⟩
            · simp only [matchAskLevelAux, hf, if_neg hrem, if_neg hcan,
                if_neg hfull]
            · rw [htl]
              simp only [List.map_cons, List.length_cons, List.length_nil,
                List.filter_cons, hcan', Bool.not_false, if_true,
                List.take_succ_cons, List.take_zero, List.map_nil]

theorem matchBidLevelAux_fifo (uid nid : Nat) (sym : String) (price : Nat) :
    ∀ (n : Nat) (q : RingBuffer OrderNode) (remaining : Nat)
      (locs : List (Nat × OrderLocation)) (trades : List TradeNotification),
      n = q.len → q.WF →
      ∃ new,
        (matchBidLevelAux uid nid sym price n q remaining locs trades).trades
          = trades ++ new ∧
        new.map (fun t => t.buyer_order_id)
          = ((q.toList.filter (fun o => !o.cancelled)).map
              (fun o => o.order_id)).take new.length := by
  intro n
  induction n with
  | zero =>
    intro q remaining locs trades hn hwf
    refine ⟨[], by simp [matchBidLevelAux], ?_⟩
    simp
  | succ n ih =>
    intro q remaining locs trades hn hwf
    cases hf : q.front with
    | none =>
      exfalso
      have := RingBuffer.front_none_len hwf hf
      omega
    | some co =>
      have htl : q.toList = co :: (q.pop).2.toList := RingBuffer.toList_eq_cons hf
      have hlen0 : q.len ≠ 0 := RingBuffer.front_some_len hf
      have hwf' : (q.pop).2.WF := RingBuffer.wf_pop hwf hlen0
      have hn' : n = (q.pop).2.len := by
        rw [RingBuffer.pop_snd_len _ hlen0]
        omega
      by_cases hrem : remaining = 0
      · refine ⟨[], ?_, by simp⟩
        simp [matchBidLevelAux, hf, hrem]
      · by_cases hcan : co.cancelled = true
        · obtain ⟨new, h1, h2⟩ := ih (q.pop).2 remaining
            (locErase locs co.order_id) trades hn' hwf'
          refine ⟨new, ?_, ?_⟩
          · simp only [matchBidLevelAux, hf, if_neg hrem, if_pos hcan]
            exact h1
          · rw [htl, h2]
            simp [List.filter_cons, hcan]
        · have hcan' : co.cancelled = false := by
            cases hco : co.cancelled
            · rfl
            · exact absurd hco hcan
          by_cases hfull : co.quantity - min remaining co.quantity = 0
          · obtain ⟨new, h1, h2⟩ := ih (q.pop).2
              (remaining - min remaining co.quantity)
              (locErase locs co.order_id)
              (trades ++ [⟨0, sym, price, min remaining co.quantity,
                co.user_id, co.order_id, uid, nid, 0⟩]) hn' hwf'
            refine ⟨⟨0, sym, price, min remaining co.quantity,
              co.user_id, co.order_id, uid, nid, 0⟩ :: new, ?_, ?_⟩
            · simp only [matchBidLevelAux, hf, if_neg hrem, if_neg hcan,
                if_pos hfull]
              rw [h1, List.append_assoc]
              rfl
            · rw [htl]
              simp only [List.map_cons, List.length_cons, List.filter_cons,
                hcan', Bool.not_false, if_true, List.take_succ_cons]
              rw [h2]
          · refine ⟨[⟨0, sym, price, min remaining co.quantity,
              co.user_id, co.order_id, uid, nid, 0⟩], ?_, ?_⟩
            · simp only [matchBidLevelAux, hf, if_neg hrem, if_neg hcan,
                if_neg hfull]
            · rw [htl]
              simp only [List.map_cons, List.length_cons, List.length_nil,
                List.filter_cons, hcan', Bool.not_false, if_true,
                List.take_succ_cons, List.take_zero, List.map_nil]

theorem matchAskLevelAux_rem_zero (uid nid : Nat) (sym : String)
    (price : Nat) : ∀ (n : Nat) (q : RingBuffer OrderNode) (remaining : Nat)
    (locs : List (Nat × OrderLocation)) (trades : List TradeNotification),
    n = q.len → q.WF →
    (matchAskLevelAux uid nid sym price n q remaining locs trades).queue.len ≠ 0 →
    (matchAskLevelAux uid nid sym price n q remaining locs trades).remaining
      = 0 := by
  intro n
  induction n with
  | zero =>
    intro q remaining locs trades hn _ hq
    exact absurd hn.symm hq
  | succ n ih =>
    intro q remaining locs trades hn hwf hq
    cases hf : q.front with
    | none =>
      exfalso
      have := RingBuffer.front_none_len hwf hf
      omega
    | some co =>
      have hlen0 : q.len ≠ 0 := RingBuffer.front_some_len hf
      have hwf' : (q.pop).2.WF := RingBuffer.wf_pop hwf hlen0
      have hn' : n = (q.pop).2.len := by
        rw [RingBuffer.pop_snd_len _ hlen0]
        omega
      simp only [matchAskLevelAux, hf] at hq ⊢
      by_cases hrem : remaining = 0
      · rw [if_pos hrem]
        exact hrem
      · rw [if_neg hrem] at hq ⊢
        by_cases hcan : co.cancelled = true
        · rw [if_pos hcan] at hq ⊢
          exact ih _ _ _ _ hn' hwf' hq
        · rw [if_neg hcan] at hq ⊢
          by_cases hfull : co.quantity - min remaining co.quantity = 0
          · rw [if_pos hfull] at hq ⊢
            exact ih _ _ _ _ hn' hwf' hq
          · rw [if_neg hfull] at hq ⊢
            have h1 : min remaining co.quantity ≤ co.quantity :=
              Nat.min_le_right _ _
            have h2 : min remaining co.quantity = remaining
                ∨ min remaining co.quantity = co.quantity := by
              rcases Nat.le_total remaining co.quantity with hle | hle
              · exact Or.inl (Nat.min_eq_left hle)
              · exact Or.inr (Nat.min_eq_right hle)
            show remaining - min remaining co.quantity = 0
            omega

theorem matchBidLevelAux_rem_zero (uid nid : Nat) (sym : String)
    (price : Nat) : ∀ (n : Nat) (q : RingBuffer OrderNode) (remaining : Nat)
    (locs : List (Nat × OrderLocation)) (trades : List TradeNotification),
    n = q.len → q.WF →
    (matchBidLevelAux uid nid sym price n q remaining locs trades).queue.len ≠ 0 →
    (matchBidLevelAux uid nid sym price n q remaining locs trades).remaining
      = 0 := by
  intro n
  induction n with
  | zero =>
    intro q remaining locs trades hn _ hq
    exact absurd hn.symm hq
  | succ n ih =>
    intro q remaining locs trades hn hwf hq
    cases hf : q.front with
    | none =>
      exfalso
      have := RingBuffer.front_none_len hwf hf
      omega
    | some co =>
      have hlen0 : q.len ≠ 0 := RingBuffer.front_some_len hf
      have hwf' : (q.pop).2.WF := RingBuffer.wf_pop hwf hlen0
      have hn' : n = (q.pop).2.len := by
        rw [RingBuffer.pop_snd_len _ hlen0]
        omega
      simp only [matchBidLevelAux, hf] at hq ⊢
      by_cases hrem : remaining = 0
      · rw [if_pos hrem]
        exact hrem
      · rw [if_neg hrem] at hq ⊢
        by_cases hcan : co.cancelled = true
        · rw [if_pos hcan] at hq ⊢
          exact ih _ _ _ _ hn' hwf' hq
        · rw [if_neg hcan] at hq ⊢
          by_cases hfull : co.quantity - min remaining co.quantity = 0
          · rw [if_pos hfull] at hq ⊢
            exact ih _ _ _ _ hn' hwf' hq
          · rw [if_neg hfull] at hq ⊢
            have h1 : min remaining co.quantity ≤ co.quantity :=
              Nat.min_le_right _ _
            have h2 : min remaining co.quantity = remaining
                ∨ min remaining co.quantity = co.quantity := by
              rcases Nat.le_total remaining co.quantity with hle | hle
              · exact Or.inl (Nat.min_eq_left hle)
              · exact Or.inr (Nat.min_eq_right hle)
            show remaining - min remaining co.quantity = 0
            omega

theorem findFirstOneAux_all_zero {l : List Nat} (h : ∀ x ∈ l, x = 0) :
    ∀ (blockIdx len : Nat), findFirstOneAux l blockIdx len = none := by
  induction l with
  | nil => intro blockIdx len; rfl
  | cons b rest ih =>
    intro blockIdx len
    have hb : b = 0 := h b (List.mem_cons_self _ _)
    simp only [findFirstOneAux, hb, ne_eq, not_true_eq_false, if_false]
    exact ih (fun x hx => h x (List.mem_cons_of_mem _ hx)) _ _

theorem findNextOne_all_zero {bm : FastBitmap}
    (h : ∀ x ∈ bm.blocks, x = 0) (start : Nat) :
    bm.findNextOne start = none := by
  unfold FastBitmap.findNextOne
  split
  · rfl
  · have hblk : ∀ sb, (bm.blocks.get? sb).getD 0 = 0 := by
      intro sb
      cases hg : bm.blocks.get? sb with
      | none => rfl
      | some x =>
        have : x ∈ bm.blocks := by
          rw [List.get?_eq_getElem?] at hg
          exact List.getElem?_mem hg
        simp [h x this]
    have hfsb : findNextStartBlock bm start = none := by
      unfold findNextStartBlock
      simp only [hblk, Nat.zero_and, ne_eq, not_true_eq_false, if_false,
        ite_self]
    rw [hfsb]
    exact findFirstOneAux_all_zero
      (fun x hx => h x (List.mem_of_mem_drop hx)) _ _

theorem withIdxFrom_mem_snd {α : Type} {p : Nat × α} :
    ∀ {i : Nat} {l : List α}, p ∈ withIdxFrom i l → p.2 ∈ l := by
  intro i l
  induction l generalizing i with
  | nil => intro h; simp [withIdxFrom] at h
  | cons a rest ih =>
    intro h
    simp only [withIdxFrom, List.mem_cons] at h
    rcases h with h | h
    · subst h; exact List.mem_cons_self _ _
    · exact List.mem_cons_of_mem _ (ih h)

theorem findPrevBlocksAux_all_zero {l : List (Nat × Nat)}
    (h : ∀ p ∈ l, p.2 = 0) : findPrevBlocksAux l = none := by
  induction l with
  | nil => rfl
  | cons p rest ih =>
    match p with
    | (blockIdx, b) =>
      have hb : b = 0 := h _ (List.mem_cons_self _ _)
      simp only [findPrevBlocksAux, hb, ne_eq, not_true_eq_false, if_false]
      exact ih (fun x hx => h x (List.mem_cons_of_mem _ hx))

theorem findPrevOne_all_zero {bm : FastBitmap}
    (h : ∀ x ∈ bm.blocks, x = 0) (start : Nat) :
    bm.findPrevOne start = none := by
  unfold FastBitmap.findPrevOne
  split
  · rfl
  · have hblk : ∀ sb, (bm.blocks.get? sb).getD 0 = 0 := by
      intro sb
      cases hg : bm.blocks.get? sb with
      | none => rfl
      | some x =>
        have : x ∈ bm.blocks := by
          rw [List.get?_eq_getElem?] at hg
          exact List.getElem?_mem hg
        simp [h x this]
    simp only [hblk, Nat.zero_and, ne_eq, not_true_eq_false, if_false]
    apply findPrevBlocksAux_all_zero
    intro p hp
    rw [List.mem_reverse] at hp
    exact h _ (List.mem_of_mem_take (withIdxFrom_mem_snd hp))

theorem set_replicate_zero : ∀ (k bi : Nat),
    (List.replicate k (0 : Nat)).set bi 0 = List.replicate k 0 := by
  intro k
  induction k with
  | zero => intro bi; rfl
  | succ k ih =>
    intro bi
    cases bi with
    | zero => simp [List.replicate_succ]
    | succ bi =>
      simp only [List.replicate_succ, List.set_cons_succ]
      rw [ih]

theorem pow_and_compl_zero {off : Nat} (hoff : off < 64) :
    (1 <<< off) &&& u64Compl (1 <<< off) = 0 := by
  apply Nat.eq_of_testBit_eq
  intro k
  rw [Nat.testBit_land, Nat.zero_testBit]
  rw [Nat.one_shiftLeft, u64Compl, Nat.testBit_xor]
  have h64 : u64AllOnes = 2 ^ 64 - 1 := by norm_num [u64AllOnes, u64Size]
  rw [h64, Nat.testBit_two_pow_sub_one, Nat.testBit_two_pow]
  by_cases hk : off = k
  · subst hk
    simp [hoff]
  · simp [hk]

theorem blockIdx_lt_numBlocks {j L : Nat} (hj : j < L) :
    j / 64 < (L + 63) / 64 := by
  have h1 : j / 64 * 64 ≤ j := Nat.div_mul_le_self j 64
  have h2 : (j / 64 + 1) * 64 ≤ L + 63 := by omega
  exact Nat.lt_of_lt_of_le (Nat.lt_succ_self _)
    ((Nat.le_div_iff_mul_le (by norm_num)).mpr h2)

theorem cleared_bitmap {L j : Nat} (hj : j < L) :
    ((FastBitmap.new L).set j true).set j false = FastBitmap.new L := by
  have hbi : j / 64 < (L + 63) / 64 := blockIdx_lt_numBlocks hj
  unfold FastBitmap.new FastBitmap.set
  dsimp only
  have hget1 : (List.replicate ((L + 63) / 64) (0 : Nat)).get? (j / 64)
      = some 0 := by
    rw [List.get?_eq_getElem?, List.getElem?_replicate]
    simp [hbi]
  rw [hget1]
  have hlen1 : ((List.replicate ((L + 63) / 64) (0 : Nat)).set (j / 64)
      ((some 0).getD 0 ||| 1 <<< (j % 64))).length = (L + 63) / 64 := by
    rw [List.length_set, List.length_replicate]
  have hget2 : ((List.replicate ((L + 63) / 64) (0 : Nat)).set (j / 64)
      ((some 0).getD 0 ||| 1 <<< (j % 64))).get? (j / 64)
      = some ((some (0:Nat)).getD 0 ||| 1 <<< (j % 64)) := by
    rw [List.get?_eq_getElem?, List.getElem?_set_self (by rw [List.length_replicate]; exact hbi)]
  rw [hget2]
  simp only [Option.getD_some]
  have hz : ((0:Nat) ||| 1 <<< (j % 64)) &&& u64Compl (1 <<< (j % 64)) = 0 := by
    have h0 : (0:Nat) ||| 1 <<< (j % 64) = 1 <<< (j % 64) := by
      simp
    rw [h0]
    exact pow_and_compl_zero (Nat.mod_lt _ (by norm_num))
  rw [hz, List.set_set, set_replicate_zero]

theorem buyWalkAux_zero_rem (reqPrice uid nid : Nat) (sym : String)
    (spec : ContractSpec) (n : Nat)
    (levels : List (Option (RingBuffer OrderNode))) (bm : FastBitmap)
    (locs : List (Nat × OrderLocation)) (trades : List TradeNotification)
    (idx : Nat) :
    buyWalkAux reqPrice uid nid sym spec n levels bm locs trades 0 idx
      = ⟨levels, bm, locs, trades, 0⟩ := by
  cases n with
  | zero => rw [buyWalkAux, if_pos rfl]
  | succ n => rw [buyWalkAux, if_pos rfl]

theorem sellWalkAux_zero_rem (reqPrice uid nid : Nat) (sym : String)
    (spec : ContractSpec) (n : Nat)
    (levels : List (Option (RingBuffer OrderNode))) (bm : FastBitmap)
    (locs : List (Nat × OrderLocation)) (trades : List TradeNotification)
    (idx : Nat) :
    sellWalkAux reqPrice uid nid sym spec n levels bm locs trades 0 idx
      = ⟨levels, bm, locs, trades, 0⟩ := by
  cases n with
  | zero => rw [sellWalkAux, if_pos rfl]
  | succ n => rw [sellWalkAux, if_pos rfl]

theorem matchAskLevelAux_zero_rem (uid nid : Nat) (sym : String)
    (price : Nat) (n : Nat) (q : RingBuffer OrderNode)
    (locs : List (Nat × OrderLocation)) (trades : List TradeNotification) :
    matchAskLevelAux uid nid sym price n q 0 locs trades
      = ⟨q, 0, locs, trades⟩ := by
  cases n with
  | zero => rfl
  | succ n =>
    rw [matchAskLevelAux]
    cases hf : q.front with
    | none => rfl
    | some co => rfl

theorem matchBidLevelAux_zero_rem (uid nid : Nat) (sym : String)
    (price : Nat) (n : Nat) (q : RingBuffer OrderNode)
    (locs : List (Nat × OrderLocation)) (trades : List TradeNotification) :
    matchBidLevelAux uid nid sym price n q 0 locs trades
      = ⟨q, 0, locs, trades⟩ := by
  cases n with
  | zero => rfl
  | succ n =>
    rw [matchBidLevelAux]
    cases hf : q.front with
    | none => rfl
    | some co => rfl

theorem buyWalkAux_single_level (reqPrice uid nid : Nat) (sym : String)
    (spec : ContractSpec) (levels : List (Option (RingBuffer OrderNode)))
    (L j : Nat) (hj : j < L) (q : RingBuffer OrderNode) (hwf : q.WF)
    (hq : levels.get? j = some (some q))
    (locs : List (Nat × OrderLocation)) (trades : List TradeNotification)
    (remaining : Nat) (n : Nat) (hn : 0 < n) :
    (buyWalkAux reqPrice uid nid sym spec n levels
        ((FastBitmap.new L).set j true) locs trades remaining j).trades
      = trades ∨
    (buyWalkAux reqPrice uid nid sym spec n levels
        ((FastBitmap.new L).set j true) locs trades remaining j).trades
      = (matchAskLevel uid nid sym (indexToPrice spec j) q remaining locs
          trades).trades := by
  obtain ⟨m, rfl⟩ : ∃ m, n = m + 1 := ⟨n - 1, by omega⟩
  rw [buyWalkAux]
  by_cases hrem : remaining = 0
  · rw [if_pos hrem]
    exact Or.inl rfl
  · rw [if_neg hrem]
    by_cases hpr : indexToPrice spec j > reqPrice
    · rw [if_pos hpr]
      exact Or.inl rfl
    · rw [if_neg hpr]
      have hstep : buyStep uid nid sym spec levels
          ((FastBitmap.new L).set j true) locs trades remaining j
          = (if (matchAskLevel uid nid sym (indexToPrice spec j) q remaining
                locs trades).queue.len = 0 then
              ⟨levels.set j none, ((FastBitmap.new L).set j true).set j false,
                (matchAskLevel uid nid sym (indexToPrice spec j) q remaining
                  locs trades).locs,
                (matchAskLevel uid nid sym (indexToPrice spec j) q remaining
                  locs trades).trades,
                (matchAskLevel uid nid sym (indexToPrice spec j) q remaining
                  locs trades).remaining⟩
            else
              ⟨levels.set j (some (matchAskLevel uid nid sym
                  (indexToPrice spec j) q remaining locs trades).queue),
                (FastBitmap.new L).set j true,
                (matchAskLevel uid nid sym (indexToPrice spec j) q remaining
                  locs trades).locs,
                (matchAskLevel uid nid sym (indexToPrice spec j) q remaining
                  locs trades).trades,
                (matchAskLevel uid nid sym (indexToPrice spec j) q remaining
                  locs trades).remaining⟩) := by
        unfold buyStep
        rw [hq]
      rw [hstep]
      by_cases hqe : (matchAskLevel uid nid sym (indexToPrice spec j) q
          remaining locs trades).queue.len = 0
      · rw [if_pos hqe]
        have hcl : ((FastBitmap.new L).set j true).set j false
            = FastBitmap.new L := cleared_bitmap hj
        have hnone : (FastBitmap.new L).findNextOne j = none :=
          findNextOne_all_zero
            (fun x hx => List.eq_of_mem_replicate hx) j
        dsimp only
        rw [hcl, hnone]
        exact Or.inr rfl
      · rw [if_neg hqe]
        have hrem0 : (matchAskLevel uid nid sym (indexToPrice spec j) q
            remaining locs trades).remaining = 0 :=
          matchAskLevelAux_rem_zero uid nid sym (indexToPrice spec j) q.len q
            remaining locs trades rfl hwf hqe
        dsimp only
        cases hnext : ((FastBitmap.new L).set j true).findNextOne j with
        | none => exact Or.inr rfl
        | some nxt =>
          simp only [hrem0, buyWalkAux_zero_rem]
          exact Or.inr trivial

theorem sellWalkAux_single_level (reqPrice uid nid : Nat) (sym : String)
    (spec : ContractSpec) (levels : List (Option (RingBuffer OrderNode)))
    (L j : Nat) (hj : j < L) (q : RingBuffer OrderNode) (hwf : q.WF)
    (hq : levels.get? j = some (some q))
    (locs : List (Nat × OrderLocation)) (trades : List TradeNotification)
    (remaining : Nat) (n : Nat) (hn : 0 < n) :
    (sellWalkAux reqPrice uid nid sym spec n levels
        ((FastBitmap.new L).set j true) locs trades remaining j).trades
      = trades ∨
    (sellWalkAux reqPrice uid nid sym spec n levels
        ((FastBitmap.new L).set j true) locs trades remaining j).trades
      = (matchBidLevel uid nid sym (indexToPrice spec j) q remaining locs
          trades).trades := by
  obtain ⟨m, rfl⟩ : ∃ m, n = m + 1 := ⟨n - 1, by omega⟩
  rw [sellWalkAux]
  by_cases hrem : remaining = 0
  · rw [if_pos hrem]
    exact Or.inl rfl
  · rw [if_neg hrem]
    by_cases hpr : indexToPrice spec j < reqPrice
    · rw [if_pos hpr]
      exact Or.inl rfl
    · rw [if_neg hpr]
      have hstep : sellStep uid nid sym spec levels
          ((FastBitmap.new L).set j true) locs trades remaining j
          = (if (matchBidLevel uid nid sym (indexToPrice spec j) q remaining
                locs trades).queue.len = 0 then
              ⟨levels.set j none, ((FastBitmap.new L).set j true).set j false,
                (matchBidLevel uid nid sym (indexToPrice spec j) q remaining
                  locs trades).locs,
                (matchBidLevel uid nid sym (indexToPrice spec j) q remaining
                  locs trades).trades,
                (matchBidLevel uid nid sym (indexToPrice spec j) q remaining
                  locs trades).remaining⟩
            else
              ⟨levels.set j (some (matchBidLevel uid nid sym
                  (indexToPrice spec j) q remaining locs trades).queue),
                (FastBitmap.new L).set j true,
                (matchBidLevel uid nid sym (indexToPrice spec j) q remaining
                  locs trades).locs,
                (matchBidLevel uid nid sym (indexToPrice spec j) q remaining
                  locs trades).trades,
                (matchBidLevel uid nid sym (indexToPrice spec j) q remaining
                  locs trades).remaining⟩) := by
        unfold sellStep
        rw [hq]
      rw [hstep]
      by_cases hqe : (matchBidLevel uid nid sym (indexToPrice spec j) q
          remaining locs trades).queue.len = 0
      · rw [if_pos hqe]
        have hcl : ((FastBitmap.new L).set j true).set j false
            = FastBitmap.new L := cleared_bitmap hj
        have hnone : (FastBitmap.new L).findPrevOne j = none :=
          findPrevOne_all_zero
            (fun x hx => List.eq_of_mem_replicate hx) j
        dsimp only
        rw [hcl, hnone]
        exact Or.inr rfl
      · rw [if_neg hqe]
        have hrem0 : (matchBidLevel uid nid sym (indexToPrice spec j) q
            remaining locs trades).remaining = 0 :=
          matchBidLevelAux_rem_zero uid nid sym (indexToPrice spec j) q.len q
            remaining locs trades rfl hwf hqe
        dsimp only
        cases hnext : ((FastBitmap.new L).set j true).findPrevOne j with
        | none => exact Or.inr rfl
        | some nxt =>
          simp only [hrem0, sellWalkAux_zero_rem]
          exact Or.inr trivial

/-- C8: FIFO within a price level.  For a `match_order` call against a book
    whose opposite side rests entirely at one price level `j` (the cache
    points at `j`, the slot holds the queue `q`, and the side's bitmap has
    exactly bit `j` set), the i-th generated trade's resting-side order id
    (seller for an incoming Buy, buyer for an incoming Sell) is the id of
    the i-th non-cancelled order of `q` in queue (arrival) order. -/
theorem c8_fifo_level (b : TickBasedOrderBook) (r : NewOrderRequest)
    (ridx : Nat) (h : priceToIndex b.spec r.price = some ridx)
    (j : Nat) (hj : j < numLevels b.spec) (q : RingBuffer OrderNode)
    (hwf : q.WF) :
    (r.order_type = OrderType.Buy →
      b.best_ask_idx = some j →
      b.ask_levels.get? j = some (some q) →
      b.ask_bitmap = (FastBitmap.new (numLevels b.spec)).set j true →
      (matchOrder b r).2.1.map (fun t => t.seller_order_id)
        = ((q.toList.filter (fun o => !o.cancelled)).map
            (fun o => o.order_id)).take (matchOrder b r).2.1.length) ∧
    (r.order_type = OrderType.Sell →
      b.best_bid_idx = some j →
      b.bid_levels.get? j = some (some q) →
      b.bid_bitmap = (FastBitmap.new (numLevels b.spec)).set j true →
      (matchOrder b r).2.1.map (fun t => t.buyer_order_id)
        = ((q.toList.filter (fun o => !o.cancelled)).map
            (fun o => o.order_id)).take (matchOrder b r).2.1.length) := by
  constructor
  · intro hbuy hcur hq hbm
    have key : (matchOrder b r).2.1
        = (buyWalkAux r.price r.user_id b.next_order_id r.symbol b.spec
            (numLevels b.spec + 1) b.ask_levels
            ((FastBitmap.new (numLevels b.spec)).set j true)
            b.order_locations [] r.quantity j).trades := by
      unfold matchOrder
      rw [h, hbuy]
      dsimp only
      rw [hcur, hbm]
      rfl
    rw [key]
    rcases buyWalkAux_single_level r.price r.user_id b.next_order_id r.symbol
        b.spec b.ask_levels (numLevels b.spec) j hj q hwf hq
        b.order_locations [] r.quantity (numLevels b.spec + 1)
        (Nat.succ_pos _) with h0 | hlvl
    · rw [h0]
      simp
    · rw [hlvl]
      obtain ⟨new, h1, h2⟩ := matchAskLevelAux_fifo r.user_id b.next_order_id
        r.symbol (indexToPrice b.spec j) q.len q r.quantity b.order_locations
        [] rfl hwf
      rw [List.nil_append] at h1
      unfold matchAskLevel
      rw [h1]
      exact h2
  · intro hsell hcur hq hbm
    have key : (matchOrder b r).2.1
        = (sellWalkAux r.price r.user_id b.next_order_id r.symbol b.spec
            (j + 1) b.bid_levels
            ((FastBitmap.new (numLevels b.spec)).set j true)
            b.order_locations [] r.quantity j).trades := by
      unfold matchOrder
      rw [h, hsell]
      dsimp only
      rw [hcur, hbm]
      rfl
    rw [key]
    rcases sellWalkAux_single_level r.price r.user_id b.next_order_id r.symbol
        b.spec b.bid_levels (numLevels b.spec) j hj q hwf hq
        b.order_locations [] r.quantity (j + 1)
        (Nat.succ_pos _) with h0 | hlvl
    · rw [h0]
      simp
    · rw [hlvl]
      obtain ⟨new, h1, h2⟩ := matchBidLevelAux_fifo r.user_id b.next_order_id
        r.symbol (indexToPrice b.spec j) q.len q r.quantity b.order_locations
        [] rfl hwf
      rw [List.nil_append] at h1
      unfold matchBidLevel
      rw [h1]
      exact h2

/-- An ask queue of capacity 4 holding two resting sells of 50 at price
    1500 (order ids 1 then 2), as after scenario S2's two sell calls. -/
def c8Queue : RingBuffer OrderNode :=
  { buffer := [some ⟨7, 1, 1500, 50, false⟩, some ⟨8, 2, 1500, 50, false⟩,
               none, none],
    capacity := 4, head := 0, tail := 2, len := 2 }

/-- A standard-spec book whose only resting orders are the two sells of
    `c8Queue` at index 50 (price 1500). -/
def c8Book : TickBasedOrderBook :=
  { spec := ContractSpec.make "TEST" 10 1000 2000,
    bid_levels := List.replicate 101 none,
    ask_levels := (List.replicate 101
        (none : Option (RingBuffer OrderNode))).set 50 (some c8Queue),
    bid_bitmap := FastBitmap.new 101,
    ask_bitmap := (FastBitmap.new 101).set 50 true,
    best_bid_idx := none,
    best_ask_idx := some 50,
    next_order_id := 3,
    order_locations := [(1, ⟨50, false⟩), (2, ⟨50, false⟩)] }

/-- Witness for C8: a buy for 120 against the two resting sells generates
    trades whose seller order ids are the level's queue ids in FIFO
    order. -/
theorem c8_witness :
    (matchOrder c8Book ⟨9, "TEST", OrderType.Buy, 1500, 120⟩).2.1.map
        (fun t => t.seller_order_id)
      = ((c8Queue.toList.filter (fun o => !o.cancelled)).map
          (fun o => o.order_id)).take
          (matchOrder c8Book
            ⟨9, "TEST", OrderType.Buy, 1500, 120⟩).2.1.length :=
  (c8_fifo_level c8Book ⟨9, "TEST", OrderType.Buy, 1500, 120⟩ 50
    (by decide) 50 (by decide) c8Queue
    ⟨rfl, by decide, by decide, by decide, by decide⟩).1 rfl rfl rfl rfl

/-! Occupancy invariant (claim C9).  The per-side equivalence between the
    level array and the bitmap, stated for the queue length (the form the
    code actually maintains: `cancel_order` never writes `None` back into
    an emptied slot, so `is_some` can outlive emptiness, but the bit always
    tracks `len > 0`). -/

/-- `List.set` out of range is the identity (Rust would panic; the embedded
    call sites never reach this case, the lemma only simplifies proofs). -/
theorem listSet_oor {α : Type} : ∀ (l : List α) (i : Nat) (a : α),
    l.length ≤ i → l.set i a = l := by
  intro l
  induction l with
  | nil => intro i a h; rfl
  | cons x xs ih =>
    intro i a h
    cases i with
    | zero => exact absurd h (by simp)
    | succ i =>
      simp only [List.set_cons_succ]
      rw [ih i a (by simpa using h)]

/-- `FastBitmap.get` reads exactly one bit of one block. -/
theorem fastGet_testBit (bm : FastBitmap) (i : Nat) :
    bm.get i = ((bm.blocks.get? (i / 64)).getD 0).testBit (i % 64) := by
  unfold FastBitmap.get
  rw [Nat.one_shiftLeft]
  have hand : (bm.blocks.get? (i / 64)).getD 0 &&& 2 ^ (i % 64)
      = if ((bm.blocks.get? (i / 64)).getD 0).testBit (i % 64) then
          2 ^ (i % 64) else 0 := by
    apply Nat.eq_of_testBit_eq
    intro k
    rw [Nat.testBit_land]
    by_cases hk : i % 64 = k
    · subst hk
      cases h : ((bm.blocks.get? (i / 64)).getD 0).testBit (i % 64) <;>
        simp [h, Nat.testBit_two_pow_self]
    · cases h : ((bm.blocks.get? (i / 64)).getD 0).testBit (i % 64) <;>
        simp [h, Nat.testBit_two_pow_of_ne hk]
  rw [hand]
  cases h : ((bm.blocks.get? (i / 64)).getD 0).testBit (i % 64)
  · simp
  · simp only [if_true]
    simp [bne_iff_ne]

/-- `set` keeps the number of blocks. -/
theorem FastBitmap.set_blocks_length (bm : FastBitmap) (j : Nat) (v : Bool) :
    (bm.set j v).blocks.length = bm.blocks.length := by
  unfold FastBitmap.set
  cases v <;> simp [List.length_set]

/-- Setting an in-range bit makes `get` read back the written value. -/
theorem FastBitmap.get_set_self {bm : FastBitmap} {j : Nat}
    (hb : j / 64 < bm.blocks.length) (v : Bool) :
    (bm.set j v).get j = v := by
  have hoff : j % 64 < 64 := Nat.mod_lt _ (by norm_num)
  cases v
  · unfold FastBitmap.set
    dsimp only
    rw [fastGet_testBit]
    dsimp only
    rw [List.get?_eq_getElem?, List.getElem?_set_self hb, Option.getD_some]
    rw [Nat.testBit_land]
    have hc : (u64Compl (1 <<< (j % 64))).testBit (j % 64) = false := by
      rw [u64Compl, Nat.testBit_xor, Nat.one_shiftLeft]
      have h64 : u64AllOnes = 2 ^ 64 - 1 := by norm_num [u64AllOnes, u64Size]
      rw [h64, Nat.testBit_two_pow_sub_one, Nat.testBit_two_pow_self]
      simp [hoff]
    rw [hc, Bool.and_false]
  · unfold FastBitmap.set
    dsimp only
    rw [fastGet_testBit]
    dsimp only
    rw [List.get?_eq_getElem?, List.getElem?_set_self hb, Option.getD_some]
    rw [Nat.testBit_or, Nat.one_shiftLeft, Nat.testBit_two_pow_self,
      Bool.or_true]

/-- Setting bit `j` leaves every other bit unchanged. -/
theorem FastBitmap.get_set_ne {bm : FastBitmap} {i j : Nat} (hne : i ≠ j)
    (v : Bool) : (bm.set j v).get i = bm.get i := by
  have hoffi : i % 64 < 64 := Nat.mod_lt _ (by norm_num)
  by_cases hblk : i / 64 = j / 64
  · have hmod : i % 64 ≠ j % 64 := by
      intro hm
      apply hne
      have hi := Nat.div_add_mod i 64
      have hj := Nat.div_add_mod j 64
      omega
    by_cases hlt : j / 64 < bm.blocks.length
    · cases v
      · unfold FastBitmap.set
        dsimp only
        rw [fastGet_testBit, fastGet_testBit]
        dsimp only
        rw [hblk, List.get?_eq_getElem?, List.getElem?_set_self hlt,
          Option.getD_some]
        rw [Nat.testBit_land]
        have hc : (u64Compl (1 <<< (j % 64))).testBit (i % 64) = true := by
          rw [u64Compl, Nat.testBit_xor, Nat.one_shiftLeft]
          have h64 : u64AllOnes = 2 ^ 64 - 1 := by norm_num [u64AllOnes, u64Size]
          rw [h64, Nat.testBit_two_pow_sub_one,
            Nat.testBit_two_pow_of_ne (fun h => hmod h.symm)]
          simp [hoffi]
        rw [hc, Bool.and_true]
      · unfold FastBitmap.set
        dsimp only
        rw [fastGet_testBit, fastGet_testBit]
        dsimp only
        rw [hblk, List.get?_eq_getElem?, List.getElem?_set_self hlt,
          Option.getD_some]
        rw [Nat.testBit_or, Nat.one_shiftLeft,
          Nat.testBit_two_pow_of_ne (fun h => hmod h.symm), Bool.or_false]
    · have hoor : bm.blocks.set (j / 64)
          ((bm.blocks.get? (j / 64)).getD 0 &&&
            u64Compl (1 <<< (j % 64))) = bm.blocks :=
        listSet_oor _ _ _ (by omega)
      have hoor' : bm.blocks.set (j / 64)
          ((bm.blocks.get? (j / 64)).getD 0 ||| (1 <<< (j % 64))) = bm.blocks :=
        listSet_oor _ _ _ (by omega)
      cases v
      · unfold FastBitmap.set
        dsimp only
        rw [fastGet_testBit, fastGet_testBit]
        dsimp only
        rw [hoor]
      · unfold FastBitmap.set
        dsimp only
        rw [fastGet_testBit, fastGet_testBit]
        dsimp only
        rw [hoor']
  · cases v
    · unfold FastBitmap.set
      dsimp only
      rw [fastGet_testBit, fastGet_testBit]
      dsimp only
      rw [List.get?_eq_getElem?,
        List.getElem?_set_ne (fun h => hblk h.symm), ← List.get?_eq_getElem?]
    · unfold FastBitmap.set
      dsimp only
      rw [fastGet_testBit, fastGet_testBit]
      dsimp only
      rw [List.get?_eq_getElem?,
        List.getElem?_set_ne (fun h => hblk h.symm), ← List.get?_eq_getElem?]

/-- A fresh bitmap has every bit clear. -/
theorem FastBitmap.get_new (L i : Nat) : (FastBitmap.new L).get i = false := by
  rw [fastGet_testBit]
  have hz : (((FastBitmap.new L).blocks.get? (i / 64)).getD 0) = 0 := by
    unfold FastBitmap.new
    dsimp only
    cases h : (List.replicate ((L + 63) / 64) (0 : Nat)).get? (i / 64) with
    | none => rfl
    | some w =>
      rw [List.get?_eq_getElem?] at h
      have := List.getElem?_mem h
      rw [List.eq_of_mem_replicate this]
      rfl
  rw [hz, Nat.zero_testBit]

/-- Whether the level slot at `i` holds a nonempty queue (`bids[i].len > 0`
    read through the `Option` slot). -/
def levelLive (levels : List (Option (RingBuffer OrderNode))) (i : Nat) :
    Bool :=
  match levels.get? i with
  | some (some q) => q.len != 0
  | _ => false

/-- Every queue stored on a side is well-formed with positive capacity (the
    Rust `RingBuffer`s are built by `with_capacity(cap)` with `cap > 0` and
    mutated only through `push`/`pop`/`front_mut`). -/
def QueuesWF (levels : List (Option (RingBuffer OrderNode))) : Prop :=
  ∀ i q, levels.get? i = some (some q) → q.WF ∧ 0 < q.capacity

/-- The per-side occupancy invariant: array and bitmap sized to the level
    count, stored queues well-formed, and the bitmap bit at every index
    equal to `len > 0` of the queue there. -/
def SideInv (levels : List (Option (RingBuffer OrderNode)))
    (bm : FastBitmap) (L : Nat) : Prop :=
  levels.length = L ∧ bm.len = L ∧ bm.blocks.length = (L + 63) / 64 ∧
  QueuesWF levels ∧ ∀ i, levelLive levels i = bm.get i

/-- The book-level occupancy invariant of claim C9 (amended form). -/
def BookInv (b : TickBasedOrderBook) : Prop :=
  0 < b.spec.queue_capacity ∧
  SideInv b.bid_levels b.bid_bitmap (numLevels b.spec) ∧
  SideInv b.ask_levels b.ask_bitmap (numLevels b.spec)

/-- The inner matching loop only `pop`s and `front_mut`-edits the queue, so
    well-formedness and the capacity survive it (Buy branch). -/
theorem matchAskLevelAux_queue_wf (uid nid : Nat) (sym : String)
    (price : Nat) : ∀ (n : Nat) (q : RingBuffer OrderNode) (remaining : Nat)
    (locs : List (Nat × OrderLocation)) (trades : List TradeNotification),
    q.WF →
    (matchAskLevelAux uid nid sym price n q remaining locs trades).queue.WF ∧
    (matchAskLevelAux uid nid sym price n q remaining
      locs trades).queue.capacity = q.capacity := by
  intro n
  induction n with
  | zero =>
    intro q remaining locs trades hwf
    exact ⟨hwf, rfl⟩
  | succ n ih =>
    intro q remaining locs trades hwf
    cases hf : q.front with
    | none =>
      simp only [matchAskLevelAux, hf]
      exact ⟨hwf, trivial⟩
    | some co =>
      simp only [matchAskLevelAux, hf]
      by_cases hrem : remaining = 0
      · rw [if_pos hrem]
        exact ⟨hwf, rfl⟩
      · rw [if_neg hrem]
        have hlen := RingBuffer.front_some_len hf
        by_cases hcan : co.cancelled = true
        · rw [if_pos hcan]
          have := ih (q.pop).2 remaining (locErase locs co.order_id) trades
            (RingBuffer.wf_pop hwf hlen)
          exact ⟨this.1, this.2.trans (RingBuffer.pop_snd_capacity q)⟩
        · rw [if_neg hcan]
          by_cases hfull : co.quantity - min remaining co.quantity = 0
          · rw [if_pos hfull]
            refine ⟨(ih _ _ _ _ (RingBuffer.wf_pop hwf hlen)).1,
              ((ih _ _ _ _ (RingBuffer.wf_pop hwf hlen)).2).trans
                (RingBuffer.pop_snd_capacity q)⟩
          · rw [if_neg hfull]
            exact ⟨RingBuffer.wf_modifyFront hwf _,
              RingBuffer.modifyFront_capacity q _⟩

/-- Sell-branch counterpart of `matchAskLevelAux_queue_wf`. -/
theorem matchBidLevelAux_queue_wf (uid nid : Nat) (sym : String)
    (price : Nat) : ∀ (n : Nat) (q : RingBuffer OrderNode) (remaining : Nat)
    (locs : List (Nat × OrderLocation)) (trades : List TradeNotification),
    q.WF →
    (matchBidLevelAux uid nid sym price n q remaining locs trades).queue.WF ∧
    (matchBidLevelAux uid nid sym price n q remaining
      locs trades).queue.capacity = q.capacity := by
  intro n
  induction n with
  | zero =>
    intro q remaining locs trades hwf
    exact ⟨hwf, rfl⟩
  | succ n ih =>
    intro q remaining locs trades hwf
    cases hf : q.front with
    | none =>
      simp only [matchBidLevelAux, hf]
      exact ⟨hwf, trivial⟩
    | some co =>
      simp only [matchBidLevelAux, hf]
      by_cases hrem : remaining = 0
      · rw [if_pos hrem]
        exact ⟨hwf, rfl⟩
      · rw [if_neg hrem]
        have hlen := RingBuffer.front_some_len hf
        by_cases hcan : co.cancelled = true
        · rw [if_pos hcan]
          have := ih (q.pop).2 remaining (locErase locs co.order_id) trades
            (RingBuffer.wf_pop hwf hlen)
          exact ⟨this.1, this.2.trans (RingBuffer.pop_snd_capacity q)⟩
        · rw [if_neg hcan]
          by_cases hfull : co.quantity - min remaining co.quantity = 0
          · rw [if_pos hfull]
            refine ⟨(ih _ _ _ _ (RingBuffer.wf_pop hwf hlen)).1,
              ((ih _ _ _ _ (RingBuffer.wf_pop hwf hlen)).2).trans
                (RingBuffer.pop_snd_capacity q)⟩
          · rw [if_neg hfull]
            exact ⟨RingBuffer.wf_modifyFront hwf _,
              RingBuffer.modifyFront_capacity q _⟩

/-- On an already empty queue the inner loop is the identity (Buy branch). -/
theorem matchAskLevel_len0 (uid nid : Nat) (sym : String) (price : Nat)
    {q : RingBuffer OrderNode} (h : q.len = 0) (remaining : Nat)
    (locs : List (Nat × OrderLocation)) (trades : List TradeNotification) :
    matchAskLevel uid nid sym price q remaining locs trades
      = ⟨q, remaining, locs, trades⟩ := by
  unfold matchAskLevel
  rw [h]
  rfl

/-- On an already empty queue the inner loop is the identity (Sell branch). -/
theorem matchBidLevel_len0 (uid nid : Nat) (sym : String) (price : Nat)
    {q : RingBuffer OrderNode} (h : q.len = 0) (remaining : Nat)
    (locs : List (Nat × OrderLocation)) (trades : List TradeNotification) :
    matchBidLevel uid nid sym price q remaining locs trades
      = ⟨q, remaining, locs, trades⟩ := by
  unfold matchBidLevel
  rw [h]
  rfl

/-- `levelLive` only looks at the slot. -/
theorem levelLive_congr {levels levels' : List (Option (RingBuffer OrderNode))}
    {i : Nat} (h : levels.get? i = levels'.get? i) :
    levelLive levels i = levelLive levels' i := by
  unfold levelLive
  rw [h]

/-- A slot holding a value lies inside the array. -/
theorem slot_lt_length {levels : List (Option (RingBuffer OrderNode))}
    {idx : Nat} {s : Option (RingBuffer OrderNode)}
    (hslot : levels.get? idx = some s) : idx < levels.length := by
  by_contra hge
  rw [List.get?_eq_getElem?, List.getElem?_eq_none (by omega)] at hslot
  exact Option.noConfusion hslot

/-- Updating a slot to `None` while clearing its bit preserves the side
    invariant. -/
theorem sideInv_set_empty {levels : List (Option (RingBuffer OrderNode))}
    {bm : FastBitmap} {L : Nat} (h : SideInv levels bm L) {idx : Nat}
    {q : RingBuffer OrderNode} (hslot : levels.get? idx = some (some q)) :
    SideInv (levels.set idx none) (bm.set idx false) L := by
  obtain ⟨hlen, hbmlen, hblocks, hqwf, hlive⟩ := h
  have hidx : idx < levels.length := slot_lt_length hslot
  refine ⟨by rw [List.length_set]; exact hlen,
    by rw [FastBitmap.set_len]; exact hbmlen,
    by rw [FastBitmap.set_blocks_length]; exact hblocks, ?_, ?_⟩
  · intro i q' hi
    by_cases hieq : i = idx
    · subst hieq
      rw [List.get?_eq_getElem?, List.getElem?_set_self hidx] at hi
      exact absurd hi (by simp)
    · rw [List.get?_eq_getElem?,
        List.getElem?_set_ne (fun hh => hieq hh.symm),
        ← List.get?_eq_getElem?] at hi
      exact hqwf i q' hi
  · intro i
    by_cases hieq : i = idx
    · subst hieq
      have h1 : levelLive (levels.set i none) i = false := by
        unfold levelLive
        rw [List.get?_eq_getElem?, List.getElem?_set_self hidx]
      have h2 : (bm.set i false).get i = false :=
        FastBitmap.get_set_self
          (by rw [hblocks]; exact blockIdx_lt_numBlocks (by omega)) false
      rw [h1, h2]
    · have hget : (levels.set idx none).get? i = levels.get? i := by
        rw [List.get?_eq_getElem?,
          List.getElem?_set_ne (fun hh => hieq hh.symm),
          ← List.get?_eq_getElem?]
      rw [levelLive_congr hget, FastBitmap.get_set_ne hieq, hlive i]

/-- Updating a slot to an empty (but still `Some`) queue while clearing its
    bit preserves the side invariant - the `cancel_order` shape. -/
theorem sideInv_set_deadqueue {levels : List (Option (RingBuffer OrderNode))}
    {bm : FastBitmap} {L : Nat} (h : SideInv levels bm L) {idx : Nat}
    {q out : RingBuffer OrderNode}
    (hslot : levels.get? idx = some (some q)) (hout : out.WF)
    (hcap : 0 < out.capacity) (hlen0 : out.len = 0) :
    SideInv (levels.set idx (some out)) (bm.set idx false) L := by
  obtain ⟨hlen, hbmlen, hblocks, hqwf, hlive⟩ := h
  have hidx : idx < levels.length := slot_lt_length hslot
  refine ⟨by rw [List.length_set]; exact hlen,
    by rw [FastBitmap.set_len]; exact hbmlen,
    by rw [FastBitmap.set_blocks_length]; exact hblocks, ?_, ?_⟩
  · intro i q' hi
    by_cases hieq : i = idx
    · subst hieq
      rw [List.get?_eq_getElem?, List.getElem?_set_self hidx] at hi
      have : out = q' := by
        have := Option.some.inj hi
        exact Option.some.inj this
      exact this ▸ ⟨hout, hcap⟩
    · rw [List.get?_eq_getElem?,
        List.getElem?_set_ne (fun hh => hieq hh.symm),
        ← List.get?_eq_getElem?] at hi
      exact hqwf i q' hi
  · intro i
    by_cases hieq : i = idx
    · subst hieq
      have h1 : levelLive (levels.set i (some out)) i = false := by
        unfold levelLive
        rw [List.get?_eq_getElem?, List.getElem?_set_self hidx]
        simp [hlen0]
      have h2 : (bm.set i false).get i = false :=
        FastBitmap.get_set_self
          (by rw [hblocks]; exact blockIdx_lt_numBlocks (by omega)) false
      rw [h1, h2]
    · have hget : (levels.set idx (some out)).get? i = levels.get? i := by
        rw [List.get?_eq_getElem?,
          List.getElem?_set_ne (fun hh => hieq hh.symm),
          ← List.get?_eq_getElem?]
      rw [levelLive_congr hget, FastBitmap.get_set_ne hieq, hlive i]

/-- Replacing a slot's queue by one with the same emptiness status, leaving
    the bitmap untouched, preserves the side invariant. -/
theorem sideInv_set_keepbit {levels : List (Option (RingBuffer OrderNode))}
    {bm : FastBitmap} {L : Nat} (h : SideInv levels bm L) {idx : Nat}
    {q out : RingBuffer OrderNode}
    (hslot : levels.get? idx = some (some q)) (hout : out.WF)
    (hcap : 0 < out.capacity) (heq : (out.len != 0) = (q.len != 0)) :
    SideInv (levels.set idx (some out)) bm L := by
  obtain ⟨hlen, hbmlen, hblocks, hqwf, hlive⟩ := h
  have hidx : idx < levels.length := slot_lt_length hslot
  refine ⟨by rw [List.length_set]; exact hlen, hbmlen, hblocks, ?_, ?_⟩
  · intro i q' hi
    by_cases hieq : i = idx
    · subst hieq
      rw [List.get?_eq_getElem?, List.getElem?_set_self hidx] at hi
      have : out = q' := by
        have := Option.some.inj hi
        exact Option.some.inj this
      exact this ▸ ⟨hout, hcap⟩
    · rw [List.get?_eq_getElem?,
        List.getElem?_set_ne (fun hh => hieq hh.symm),
        ← List.get?_eq_getElem?] at hi
      exact hqwf i q' hi
  · intro i
    by_cases hieq : i = idx
    · subst hieq
      have h1 : levelLive (levels.set i (some out)) i = (out.len != 0) := by
        unfold levelLive
        rw [List.get?_eq_getElem?, List.getElem?_set_self hidx]
      have h2 : levelLive levels i = (q.len != 0) := by
        unfold levelLive
        rw [hslot]
      rw [h1, heq, ← h2, hlive i]
    · have hget : (levels.set idx (some out)).get? i = levels.get? i := by
        rw [List.get?_eq_getElem?,
          List.getElem?_set_ne (fun hh => hieq hh.symm),
          ← List.get?_eq_getElem?]
      rw [levelLive_congr hget, hlive i]

/-- One Buy-walk iteration preserves the opposite side's occupancy
    invariant: an emptied level has its slot cleared and its bit cleared, a
    partially consumed level keeps a nonempty queue and its set bit. -/
theorem buyStep_sideInv (uid nid : Nat) (sym : String) (spec : ContractSpec)
    {levels : List (Option (RingBuffer OrderNode))} {bm : FastBitmap}
    (locs : List (Nat × OrderLocation)) (trades : List TradeNotification)
    (remaining : Nat) (idx : Nat) {L : Nat} (h : SideInv levels bm L) :
    SideInv
      (buyStep uid nid sym spec levels bm locs trades remaining idx).levels
      (buyStep uid nid sym spec levels bm locs trades remaining idx).bm L := by
  unfold buyStep
  cases hslot : levels.get? idx with
  | none => exact h
  | some s =>
    cases s with
    | none => exact h
    | some q =>
      dsimp only
      by_cases hq0 : (matchAskLevel uid nid sym (indexToPrice spec idx) q
          remaining locs trades).queue.len = 0
      · rw [if_pos hq0]
        exact sideInv_set_empty h hslot
      · rw [if_neg hq0]
        have hq := h.2.2.2.1 idx q hslot
        have hw := matchAskLevelAux_queue_wf uid nid sym
          (indexToPrice spec idx) q.len q remaining locs trades hq.1
        have hqlen : q.len ≠ 0 := by
          intro h0
          rw [matchAskLevel_len0 uid nid sym (indexToPrice spec idx) h0
            remaining locs trades] at hq0
          exact hq0 h0
        have h1 : ((matchAskLevel uid nid sym (indexToPrice spec idx) q
            remaining locs trades).queue.len != 0) = true := by
          simp only [bne_iff_ne, ne_eq]
          exact hq0
        have h2 : (q.len != 0) = true := by
          simp only [bne_iff_ne, ne_eq]
          exact hqlen
        exact sideInv_set_keepbit h hslot hw.1 (hw.2 ▸ hq.2) (h1.trans h2.symm)

/-- Sell-branch counterpart of `buyStep_sideInv`. -/
theorem sellStep_sideInv (uid nid : Nat) (sym : String) (spec : ContractSpec)
    {levels : List (Option (RingBuffer OrderNode))} {bm : FastBitmap}
    (locs : List (Nat × OrderLocation)) (trades : List TradeNotification)
    (remaining : Nat) (idx : Nat) {L : Nat} (h : SideInv levels bm L) :
    SideInv
      (sellStep uid nid sym spec levels bm locs trades remaining idx).levels
      (sellStep uid nid sym spec levels bm locs trades remaining idx).bm L := by
  unfold sellStep
  cases hslot : levels.get? idx with
  | none => exact h
  | some s =>
    cases s with
    | none => exact h
    | some q =>
      dsimp only
      by_cases hq0 : (matchBidLevel uid nid sym (indexToPrice spec idx) q
          remaining locs trades).queue.len = 0
      · rw [if_pos hq0]
        exact sideInv_set_empty h hslot
      · rw [if_neg hq0]
        have hq := h.2.2.2.1 idx q hslot
        have hw := matchBidLevelAux_queue_wf uid nid sym
          (indexToPrice spec idx) q.len q remaining locs trades hq.1
        have hqlen : q.len ≠ 0 := by
          intro h0
          rw [matchBidLevel_len0 uid nid sym (indexToPrice spec idx) h0
            remaining locs trades] at hq0
          exact hq0 h0
        have h1 : ((matchBidLevel uid nid sym (indexToPrice spec idx) q
            remaining locs trades).queue.len != 0) = true := by
          simp only [bne_iff_ne, ne_eq]
          exact hq0
        have h2 : (q.len != 0) = true := by
          simp only [bne_iff_ne, ne_eq]
          exact hqlen
        exact sideInv_set_keepbit h hslot hw.1 (hw.2 ▸ hq.2) (h1.trans h2.symm)

/-- The Buy walk preserves the ask side's occupancy invariant. -/
theorem buyWalkAux_sideInv (reqPrice uid nid : Nat) (sym : String)
    (spec : ContractSpec) : ∀ (n : Nat)
    (levels : List (Option (RingBuffer OrderNode))) (bm : FastBitmap)
    (locs : List (Nat × OrderLocation)) (trades : List TradeNotification)
    (remaining idx : Nat) {L : Nat}, SideInv levels bm L →
    SideInv (buyWalkAux reqPrice uid nid sym spec n levels bm locs trades
        remaining idx).levels
      (buyWalkAux reqPrice uid nid sym spec n levels bm locs trades
        remaining idx).bm L := by
  intro n
  induction n with
  | zero =>
    intro levels bm locs trades remaining idx L h
    simp only [buyWalkAux]
    split
    · exact h
    · split
      · exact h
      · exact buyStep_sideInv uid nid sym spec locs trades remaining idx h
  | succ n ih =>
    intro levels bm locs trades remaining idx L h
    simp only [buyWalkAux]
    split
    · exact h
    · split
      · exact h
      · cases hnext : (buyStep uid nid sym spec levels bm locs trades
            remaining idx).bm.findNextOne idx with
        | none =>
          exact buyStep_sideInv uid nid sym spec locs trades remaining idx h
        | some nxt =>
          exact ih _ _ _ _ _ _
            (buyStep_sideInv uid nid sym spec locs trades remaining idx h)

/-- The Sell walk preserves the bid side's occupancy invariant. -/
theorem sellWalkAux_sideInv (reqPrice uid nid : Nat) (sym : String)
    (spec : ContractSpec) : ∀ (n : Nat)
    (levels : List (Option (RingBuffer OrderNode))) (bm : FastBitmap)
    (locs : List (Nat × OrderLocation)) (trades : List TradeNotification)
    (remaining idx : Nat) {L : Nat}, SideInv levels bm L →
    SideInv (sellWalkAux reqPrice uid nid sym spec n levels bm locs trades
        remaining idx).levels
      (sellWalkAux reqPrice uid nid sym spec n levels bm locs trades
        remaining idx).bm L := by
  intro n
  induction n with
  | zero =>
    intro levels bm locs trades remaining idx L h
    simp only [sellWalkAux]
    split
    · exact h
    · split
      · exact h
      · exact sellStep_sideInv uid nid sym spec locs trades remaining idx h
  | succ n ih =>
    intro levels bm locs trades remaining idx L h
    simp only [sellWalkAux]
    split
    · exact h
    · split
      · exact h
      · cases hnext : (sellStep uid nid sym spec levels bm locs trades
            remaining idx).bm.findPrevOne idx with
        | none =>
          exact sellStep_sideInv uid nid sym spec locs trades remaining idx h
        | some nxt =>
          exact ih _ _ _ _ _ _
            (sellStep_sideInv uid nid sym spec locs trades remaining idx h)

/-- Entry-point form of `buyWalkAux_sideInv`. -/
theorem buyWalk_sideInv (reqPrice uid nid : Nat) (sym : String)
    (spec : ContractSpec) (levels : List (Option (RingBuffer OrderNode)))
    (bm : FastBitmap) (locs : List (Nat × OrderLocation))
    (trades : List TradeNotification) (remaining : Nat) (cur : Option Nat)
    {L : Nat} (h : SideInv levels bm L) :
    SideInv (buyWalk reqPrice uid nid sym spec levels bm locs trades
        remaining cur).levels
      (buyWalk reqPrice uid nid sym spec levels bm locs trades
        remaining cur).bm L := by
  cases cur with
  | none => exact h
  | some idx =>
    exact buyWalkAux_sideInv reqPrice uid nid sym spec (bm.len + 1) levels bm
      locs trades remaining idx h

/-- Entry-point form of `sellWalkAux_sideInv`. -/
theorem sellWalk_sideInv (reqPrice uid nid : Nat) (sym : String)
    (spec : ContractSpec) (levels : List (Option (RingBuffer OrderNode)))
    (bm : FastBitmap) (locs : List (Nat × OrderLocation))
    (trades : List TradeNotification) (remaining : Nat) (cur : Option Nat)
    {L : Nat} (h : SideInv levels bm L) :
    SideInv (sellWalk reqPrice uid nid sym spec levels bm locs trades
        remaining cur).levels
      (sellWalk reqPrice uid nid sym spec levels bm locs trades
        remaining cur).bm L := by
  cases cur with
  | none => exact h
  | some idx =>
    exact sellWalkAux_sideInv reqPrice uid nid sym spec (idx + 1) levels bm
      locs trades remaining idx h

/-- Storing a nonempty well-formed queue in a slot while setting its bit
    preserves the side invariant - the `add_*_order` shape (used both when
    the level existed and when `get_or_insert_with` created it). -/
theorem sideInv_set_live {levels : List (Option (RingBuffer OrderNode))}
    {bm : FastBitmap} {L : Nat} (h : SideInv levels bm L) {idx : Nat}
    (hidx : idx < L) {out : RingBuffer OrderNode} (hout : out.WF)
    (hcap : 0 < out.capacity) (hlen0 : out.len ≠ 0) :
    SideInv (levels.set idx (some out)) (bm.set idx true) L := by
  obtain ⟨hlen, hbmlen, hblocks, hqwf, hlive⟩ := h
  have hidx' : idx < levels.length := by omega
  refine ⟨by rw [List.length_set]; exact hlen,
    by rw [FastBitmap.set_len]; exact hbmlen,
    by rw [FastBitmap.set_blocks_length]; exact hblocks, ?_, ?_⟩
  · intro i q' hi
    by_cases hieq : i = idx
    · subst hieq
      rw [List.get?_eq_getElem?, List.getElem?_set_self hidx'] at hi
      have : out = q' := by
        have := Option.some.inj hi
        exact Option.some.inj this
      exact this ▸ ⟨hout, hcap⟩
    · rw [List.get?_eq_getElem?,
        List.getElem?_set_ne (fun hh => hieq hh.symm),
        ← List.get?_eq_getElem?] at hi
      exact hqwf i q' hi
  · intro i
    by_cases hieq : i = idx
    · subst hieq
      have h1 : levelLive (levels.set i (some out)) i = true := by
        unfold levelLive
        rw [List.get?_eq_getElem?, List.getElem?_set_self hidx']
        simp [hlen0]
      have h2 : (bm.set i true).get i = true :=
        FastBitmap.get_set_self
          (by rw [hblocks]; exact blockIdx_lt_numBlocks hidx) true
      rw [h1, h2]
    · have hget : (levels.set idx (some out)).get? i = levels.get? i := by
        rw [List.get?_eq_getElem?,
          List.getElem?_set_ne (fun hh => hieq hh.symm),
          ← List.get?_eq_getElem?]
      rw [levelLive_congr hget, FastBitmap.get_set_ne hieq, hlive i]

/-- A valid price index is below the level count. -/
theorem priceToIndex_lt_numLevels {spec : ContractSpec} {price idx : Nat}
    (h : priceToIndex spec price = some idx) : idx < numLevels spec := by
  unfold priceToIndex at h
  split at h
  · exact Option.noConfusion h
  · rename_i hrange
    split at h
    · exact Option.noConfusion h
    · have hidx := Option.some.inj h
      subst hidx
      unfold numLevels
      push_neg at hrange
      have hsub : price - spec.min_price ≤ spec.max_price - spec.min_price := by
        omega
      have hdiv : (price - spec.min_price) / spec.tick_size
          ≤ (spec.max_price - spec.min_price) / spec.tick_size :=
        Nat.div_le_div_right hsub
      omega

/-- `add_bid_order` preserves the bid side's occupancy invariant: whether
    the push succeeds or the queue is already full, the slot ends with a
    nonempty queue and the bit is set. -/
theorem addBidOrder_sideInv {b : TickBasedOrderBook} {idx : Nat}
    (uid quantity orderId : Nat) (hidx : idx < numLevels b.spec)
    (hcap : 0 < b.spec.queue_capacity)
    (h : SideInv b.bid_levels b.bid_bitmap (numLevels b.spec)) :
    SideInv (addBidOrder b idx uid quantity orderId).bid_levels
      (addBidOrder b idx uid quantity orderId).bid_bitmap
      (numLevels b.spec) := by
  unfold addBidOrder
  dsimp only
  have hq : (getOrInsertQueue b.bid_levels idx b.spec.queue_capacity).WF ∧
      0 < (getOrInsertQueue b.bid_levels idx b.spec.queue_capacity).capacity := by
    unfold getOrInsertQueue
    cases hslot : b.bid_levels.get? idx with
    | none => exact ⟨RingBuffer.wf_withCapacity hcap, hcap⟩
    | some s =>
      cases s with
      | none => exact ⟨RingBuffer.wf_withCapacity hcap, hcap⟩
      | some q0 => exact h.2.2.2.1 idx q0 hslot
  cases hpush : (getOrInsertQueue b.bid_levels idx b.spec.queue_capacity).push
      ⟨uid, orderId, indexToPrice b.spec idx, quantity, false⟩ with
  | none =>
    have hfull := RingBuffer.push_none.mp hpush
    have hlen0 : (getOrInsertQueue b.bid_levels idx
        b.spec.queue_capacity).len ≠ 0 := by
      have := hq.2
      omega
    exact sideInv_set_live h hidx hq.1 hq.2 hlen0
  | some q' =>
    have hlen' := RingBuffer.push_len hpush
    have hcap' := RingBuffer.push_capacity hpush
    exact sideInv_set_live h hidx (RingBuffer.wf_push hq.1 hpush)
      (by omega) (by omega)

/-- `add_ask_order` counterpart of `addBidOrder_sideInv`. -/
theorem addAskOrder_sideInv {b : TickBasedOrderBook} {idx : Nat}
    (uid quantity orderId : Nat) (hidx : idx < numLevels b.spec)
    (hcap : 0 < b.spec.queue_capacity)
    (h : SideInv b.ask_levels b.ask_bitmap (numLevels b.spec)) :
    SideInv (addAskOrder b idx uid quantity orderId).ask_levels
      (addAskOrder b idx uid quantity orderId).ask_bitmap
      (numLevels b.spec) := by
  unfold addAskOrder
  dsimp only
  have hq : (getOrInsertQueue b.ask_levels idx b.spec.queue_capacity).WF ∧
      0 < (getOrInsertQueue b.ask_levels idx b.spec.queue_capacity).capacity := by
    unfold getOrInsertQueue
    cases hslot : b.ask_levels.get? idx with
    | none => exact ⟨RingBuffer.wf_withCapacity hcap, hcap⟩
    | some s =>
      cases s with
      | none => exact ⟨RingBuffer.wf_withCapacity hcap, hcap⟩
      | some q0 => exact h.2.2.2.1 idx q0 hslot
  cases hpush : (getOrInsertQueue b.ask_levels idx b.spec.queue_capacity).push
      ⟨uid, orderId, indexToPrice b.spec idx, quantity, false⟩ with
  | none =>
    have hfull := RingBuffer.push_none.mp hpush
    have hlen0 : (getOrInsertQueue b.ask_levels idx
        b.spec.queue_capacity).len ≠ 0 := by
      have := hq.2
      omega
    exact sideInv_set_live h hidx hq.1 hq.2 hlen0
  | some q' =>
    have hlen' := RingBuffer.push_len hpush
    have hcap' := RingBuffer.push_capacity hpush
    exact sideInv_set_live h hidx (RingBuffer.wf_push hq.1 hpush)
      (by omega) (by omega)

/-- `add_bid_order` leaves the spec and the ask side untouched. -/
theorem addBidOrder_other (b : TickBasedOrderBook)
    (idx uid quantity orderId : Nat) :
    (addBidOrder b idx uid quantity orderId).spec = b.spec ∧
    (addBidOrder b idx uid quantity orderId).ask_levels = b.ask_levels ∧
    (addBidOrder b idx uid quantity orderId).ask_bitmap = b.ask_bitmap := by
  unfold addBidOrder
  dsimp only
  split <;> exact ⟨rfl, rfl, rfl⟩

/-- `add_ask_order` leaves the spec and the bid side untouched. -/
theorem addAskOrder_other (b : TickBasedOrderBook)
    (idx uid quantity orderId : Nat) :
    (addAskOrder b idx uid quantity orderId).spec = b.spec ∧
    (addAskOrder b idx uid quantity orderId).bid_levels = b.bid_levels ∧
    (addAskOrder b idx uid quantity orderId).bid_bitmap = b.bid_bitmap := by
  unfold addAskOrder
  dsimp only
  split <;> exact ⟨rfl, rfl, rfl⟩

/-- `add_bid_order` preserves the book-level occupancy invariant. -/
theorem addBidOrder_bookInv {b : TickBasedOrderBook} {idx : Nat}
    (uid quantity orderId : Nat) (hidx : idx < numLevels b.spec)
    (h : BookInv b) : BookInv (addBidOrder b idx uid quantity orderId) := by
  obtain ⟨hcap, hbid, hask⟩ := h
  obtain ⟨hsp, hal, hab⟩ := addBidOrder_other b idx uid quantity orderId
  refine ⟨?_, ?_, ?_⟩
  · rw [hsp]
    exact hcap
  · rw [hsp]
    exact addBidOrder_sideInv uid quantity orderId hidx hcap hbid
  · rw [hsp, hal, hab]
    exact hask

/-- `add_ask_order` preserves the book-level occupancy invariant. -/
theorem addAskOrder_bookInv {b : TickBasedOrderBook} {idx : Nat}
    (uid quantity orderId : Nat) (hidx : idx < numLevels b.spec)
    (h : BookInv b) : BookInv (addAskOrder b idx uid quantity orderId) := by
  obtain ⟨hcap, hbid, hask⟩ := h
  obtain ⟨hsp, hbl, hbb⟩ := addAskOrder_other b idx uid quantity orderId
  refine ⟨?_, ?_, ?_⟩
  · rw [hsp]
    exact hcap
  · rw [hsp, hbl, hbb]
    exact hbid
  · rw [hsp]
    exact addAskOrder_sideInv uid quantity orderId hidx hcap hask

/-- `match_order` preserves the book-level occupancy invariant: the walk
    clears the bit of every level it empties, and a resting residual sets
    the bit of a necessarily nonempty queue. -/
theorem matchOrder_bookInv (b : TickBasedOrderBook) (r : NewOrderRequest)
    (h : BookInv b) : BookInv (matchOrder b r).1 := by
  obtain ⟨hcap, hbid, hask⟩ := h
  cases hp : priceToIndex b.spec r.price with
  | none =>
    have hid : matchOrder b r = (b, [], none) := by
      unfold matchOrder
      rw [hp]
    rw [hid]
    exact ⟨hcap, hbid, hask⟩
  | some requestIdx =>
    have hidx := priceToIndex_lt_numLevels hp
    cases hO : r.order_type with
    | Buy =>
      unfold matchOrder
      rw [hp, hO]
      dsimp only
      have hw := buyWalk_sideInv r.price r.user_id b.next_order_id r.symbol
        b.spec b.ask_levels b.ask_bitmap b.order_locations [] r.quantity
        b.best_ask_idx hask
      split
      · exact addBidOrder_bookInv r.user_id _ b.next_order_id hidx
          (And.intro hcap (And.intro hbid hw))
      · exact And.intro hcap (And.intro hbid hw)
    | Sell =>
      unfold matchOrder
      rw [hp, hO]
      dsimp only
      have hw := sellWalk_sideInv r.price r.user_id b.next_order_id r.symbol
        b.spec b.bid_levels b.bid_bitmap b.order_locations [] r.quantity
        b.best_bid_idx hbid
      split
      · exact addAskOrder_bookInv r.user_id _ b.next_order_id hidx
          (And.intro hcap (And.intro hw hask))
      · exact And.intro hcap (And.intro hw hask)

/-- Draining a well-formed buffer yields exactly `len` elements and leaves
    an empty well-formed buffer of the same capacity. -/
theorem drainAllAux_spec {α : Type} : ∀ (n : Nat) (rb : RingBuffer α),
    n = rb.len → rb.WF →
    (drainAllAux n rb).1.length = rb.len ∧
    (drainAllAux n rb).2.len = 0 ∧
    (drainAllAux n rb).2.capacity = rb.capacity ∧
    (drainAllAux n rb).2.WF := by
  intro n
  induction n with
  | zero =>
    intro rb hn hwf
    refine ⟨?_, by show rb.len = 0; omega, rfl, hwf⟩
    show ([] : List α).length = rb.len
    simp
    omega
  | succ n ih =>
    intro rb hn hwf
    have hlen : rb.len ≠ 0 := by omega
    have hfront : ∃ v, rb.front = some v := by
      obtain ⟨hbuf, hle, hhead, htail, hlive⟩ := hwf
      have h0 := hlive 0 (by omega)
      rw [Nat.add_zero, Nat.mod_eq_of_lt hhead] at h0
      rw [RingBuffer.front, if_neg hlen]
      exact Option.isSome_iff_exists.mp h0
    obtain ⟨v, hv⟩ := hfront
    have hpf : (rb.pop).1 = some v := by
      rw [RingBuffer.pop_fst]
      exact hv
    have hplen : (rb.pop).2.len = n := by
      rw [RingBuffer.pop_snd_len rb hlen]
      omega
    have hrec := ih (rb.pop).2 hplen.symm (RingBuffer.wf_pop hwf hlen)
    simp only [drainAllAux, hpf]
    refine ⟨?_, hrec.2.1,
      hrec.2.2.1.trans (RingBuffer.pop_snd_capacity rb), hrec.2.2.2⟩
    simp only [List.length_cons, hrec.1, hplen]
    omega

/-- `drainAll` form of `drainAllAux_spec`. -/
theorem drainAll_spec {α : Type} (rb : RingBuffer α) (hwf : rb.WF) :
    (rb.drainAll).1.length = rb.len ∧ (rb.drainAll).2.len = 0 ∧
    (rb.drainAll).2.capacity = rb.capacity ∧ (rb.drainAll).2.WF :=
  drainAllAux_spec rb.len rb rfl hwf

/-- The `for order in temp_orders { let _ = queue.push(order); }` refill
    loop of `cancel_order`: while there is room every push succeeds, so
    refilling at most `capacity` items into an empty well-formed buffer
    stores them all. -/
theorem foldlPushGetD_spec {α : Type} : ∀ (items : List α)
    (acc : RingBuffer α), acc.WF → acc.len + items.length ≤ acc.capacity →
    (items.foldl (fun a o => (a.push o).getD a) acc).len
        = acc.len + items.length ∧
    (items.foldl (fun a o => (a.push o).getD a) acc).capacity
        = acc.capacity ∧
    (items.foldl (fun a o => (a.push o).getD a) acc).WF := by
  intro items
  induction items with
  | nil =>
    intro acc hwf hle
    exact ⟨by simp, rfl, hwf⟩
  | cons x xs ih =>
    intro acc hwf hle
    have hxs : acc.len + (xs.length + 1) ≤ acc.capacity := by
      simpa [List.length_cons, Nat.add_assoc] using hle
    have hlt : acc.len < acc.capacity := by omega
    have hpush : ∃ a', acc.push x = some a' := by
      cases hp : acc.push x with
      | none => exact absurd (RingBuffer.push_none.mp hp) (by omega)
      | some a' => exact ⟨a', rfl⟩
    obtain ⟨a', ha'⟩ := hpush
    have hlen' := RingBuffer.push_len ha'
    have hcap' := RingBuffer.push_capacity ha'
    have hrec := ih a' (RingBuffer.wf_push hwf ha')
      (by rw [hlen', hcap']; omega)
    simp only [List.foldl_cons, ha', Option.getD_some]
    refine ⟨?_, hrec.2.1.trans hcap', hrec.2.2⟩
    rw [hrec.1, hlen']
    simp [List.length_cons]
    omega

/-- `cancel_order` preserves the book-level occupancy invariant: the queue
    rebuild keeps the level's emptiness status unless the cancelled order
    was the last one, in which case the bit is cleared (while the slot
    keeps `Some` of the now-empty queue). -/
theorem cancelOrder_bookInv (b : TickBasedOrderBook) (oid : Nat)
    (h : BookInv b) : BookInv (cancelOrder b oid).1 := by
  obtain ⟨hcap, hbid, hask⟩ := h
  unfold cancelOrder
  cases hloc : locFind b.order_locations oid with
  | none => exact ⟨hcap, hbid, hask⟩
  | some location =>
    cases hib : location.is_bid with
    | true =>
      simp only [hib, eq_self_iff_true, if_true]
      cases hslot : b.bid_levels.get? location.price_idx with
      | none => exact ⟨hcap, hbid, hask⟩
      | some s =>
        cases s with
        | none => exact ⟨hcap, hbid, hask⟩
        | some queue =>
          dsimp only
          have hq := hbid.2.2.2.1 location.price_idx queue hslot
          have hd := drainAll_spec queue hq.1
          have htlen : (List.filter (fun o => o.order_id != oid)
              queue.drainAll.1).length ≤ queue.len := by
            have h1 := List.length_filter_le (fun o => o.order_id != oid)
              queue.drainAll.1
            omega
          have hf := foldlPushGetD_spec
            (List.filter (fun o => o.order_id != oid) queue.drainAll.1)
            queue.drainAll.2 hd.2.2.2
            (by rw [hd.2.1, hd.2.2.1]; have := hq.1.2.1; omega)
          have hcapq' : 0 < (List.foldl (fun acc o => (acc.push o).getD acc)
              queue.drainAll.2
              (List.filter (fun o => o.order_id != oid)
                queue.drainAll.1)).capacity := by
            rw [hf.2.1, hd.2.2.1]
            exact hq.2
          cases hfound : queue.drainAll.1.any (fun o => o.order_id == oid) with
          | false =>
            simp only [hfound, Bool.not_false, eq_self_iff_true, if_true]
            have htemp_eq : List.filter (fun o => o.order_id != oid)
                queue.drainAll.1 = queue.drainAll.1 := by
              apply List.filter_eq_self.mpr
              intro a ha
              cases hpa : a.order_id == oid with
              | false => simp only [bne, hpa, Bool.not_false]
              | true =>
                have : queue.drainAll.1.any (fun o => o.order_id == oid)
                    = true := List.any_eq_true.mpr ⟨a, ha, hpa⟩
                rw [hfound] at this
                exact Bool.noConfusion this
            have hlen_eq : (List.foldl (fun acc o => (acc.push o).getD acc)
                queue.drainAll.2
                (List.filter (fun o => o.order_id != oid)
                  queue.drainAll.1)).len = queue.len := by
              rw [hf.1, hd.2.1, htemp_eq, hd.1]
              omega
            have hsame : ((List.foldl (fun acc o => (acc.push o).getD acc)
                queue.drainAll.2
                (List.filter (fun o => o.order_id != oid)
                  queue.drainAll.1)).len != 0) = (queue.len != 0) := by
              rw [hlen_eq]
            exact ⟨hcap, sideInv_set_keepbit hbid hslot hf.2.2 hcapq' hsame,
              hask⟩
          | true =>
            simp only [hfound, Bool.not_true, Bool.false_eq_true, if_false]
            by_cases hq0 : (List.foldl (fun acc o => (acc.push o).getD acc)
                queue.drainAll.2
                (List.filter (fun o => o.order_id != oid)
                  queue.drainAll.1)).len = 0
            · rw [if_pos hq0]
              exact ⟨hcap, sideInv_set_deadqueue hbid hslot hf.2.2 hcapq' hq0,
                hask⟩
            · rw [if_neg hq0]
              have hqlen : queue.len ≠ 0 := by
                intro h0
                apply hq0
                rw [hf.1, hd.2.1]
                omega
              have h1 : ((List.foldl (fun acc o => (acc.push o).getD acc)
                  queue.drainAll.2
                  (List.filter (fun o => o.order_id != oid)
                    queue.drainAll.1)).len != 0) = true := by
                simp only [bne_iff_ne, ne_eq]
                exact hq0
              have h2 : (queue.len != 0) = true := by
                simp only [bne_iff_ne, ne_eq]
                exact hqlen
              exact ⟨hcap,
                sideInv_set_keepbit hbid hslot hf.2.2 hcapq' (h1.trans h2.symm),
                hask⟩
    | false =>
      simp only [hib, Bool.false_eq_true, if_false]
      cases hslot : b.ask_levels.get? location.price_idx with
      | none => exact ⟨hcap, hbid, hask⟩
      | some s =>
        cases s with
        | none => exact ⟨hcap, hbid, hask⟩
        | some queue =>
          dsimp only
          have hq := hask.2.2.2.1 location.price_idx queue hslot
          have hd := drainAll_spec queue hq.1
          have htlen : (List.filter (fun o => o.order_id != oid)
              queue.drainAll.1).length ≤ queue.len := by
            have h1 := List.length_filter_le (fun o => o.order_id != oid)
              queue.drainAll.1
            omega
          have hf := foldlPushGetD_spec
            (List.filter (fun o => o.order_id != oid) queue.drainAll.1)
            queue.drainAll.2 hd.2.2.2
            (by rw [hd.2.1, hd.2.2.1]; have := hq.1.2.1; omega)
          have hcapq' : 0 < (List.foldl (fun acc o => (acc.push o).getD acc)
              queue.drainAll.2
              (List.filter (fun o => o.order_id != oid)
                queue.drainAll.1)).capacity := by
            rw [hf.2.1, hd.2.2.1]
            exact hq.2
          cases hfound : queue.drainAll.1.any (fun o => o.order_id == oid) with
          | false =>
            simp only [hfound, Bool.not_false, eq_self_iff_true, if_true]
            have htemp_eq : List.filter (fun o => o.order_id != oid)
                queue.drainAll.1 = queue.drainAll.1 := by
              apply List.filter_eq_self.mpr
              intro a ha
              cases hpa : a.order_id == oid with
              | false => simp only [bne, hpa, Bool.not_false]
              | true =>
                have : queue.drainAll.1.any (fun o => o.order_id == oid)
                    = true := List.any_eq_true.mpr ⟨a, ha, hpa⟩
                rw [hfound] at this
                exact Bool.noConfusion this
            have hlen_eq : (List.foldl (fun acc o => (acc.push o).getD acc)
                queue.drainAll.2
                (List.filter (fun o => o.order_id != oid)
                  queue.drainAll.1)).len = queue.len := by
              rw [hf.1, hd.2.1, htemp_eq, hd.1]
              omega
            have hsame : ((List.foldl (fun acc o => (acc.push o).getD acc)
                queue.drainAll.2
                (List.filter (fun o => o.order_id != oid)
                  queue.drainAll.1)).len != 0) = (queue.len != 0) := by
              rw [hlen_eq]
            exact ⟨hcap, hbid,
              sideInv_set_keepbit hask hslot hf.2.2 hcapq' hsame⟩
          | true =>
            simp only [hfound, Bool.not_true, Bool.false_eq_true, if_false]
            by_cases hq0 : (List.foldl (fun acc o => (acc.push o).getD acc)
                queue.drainAll.2
                (List.filter (fun o => o.order_id != oid)
                  queue.drainAll.1)).len = 0
            · rw [if_pos hq0]
              exact ⟨hcap, hbid,
                sideInv_set_deadqueue hask hslot hf.2.2 hcapq' hq0⟩
            · rw [if_neg hq0]
              have hqlen : queue.len ≠ 0 := by
                intro h0
                apply hq0
                rw [hf.1, hd.2.1]
                omega
              have h1 : ((List.foldl (fun acc o => (acc.push o).getD acc)
                  queue.drainAll.2
                  (List.filter (fun o => o.order_id != oid)
                    queue.drainAll.1)).len != 0) = true := by
                simp only [bne_iff_ne, ne_eq]
                exact hq0
              have h2 : (queue.len != 0) = true := by
                simp only [bne_iff_ne, ne_eq]
                exact hqlen
              exact ⟨hcap, hbid,
                sideInv_set_keepbit hask hslot hf.2.2 hcapq' (h1.trans h2.symm)⟩

/-- A fresh side: all slots `None`, all bits clear. -/
theorem sideInv_fresh (L : Nat) :
    SideInv (List.replicate L (none : Option (RingBuffer OrderNode)))
      (FastBitmap.new L) L := by
  refine ⟨by simp, rfl, by simp [FastBitmap.new], ?_, ?_⟩
  · intro i q hi
    rw [List.get?_eq_getElem?, List.getElem?_replicate] at hi
    split at hi
    · exact Option.noConfusion (Option.some.inj hi)
    · exact Option.noConfusion hi
  · intro i
    have h1 : levelLive (List.replicate L
        (none : Option (RingBuffer OrderNode))) i = false := by
      unfold levelLive
      rw [List.get?_eq_getElem?, List.getElem?_replicate]
      by_cases hc : i < L
      · rw [if_pos hc]
      · rw [if_neg hc]
    rw [h1, FastBitmap.get_new]

/-- A fresh book satisfies the occupancy invariant: all slots `None`, all
    bits clear. -/
theorem bookInv_make (spec : ContractSpec) (hcap : 0 < spec.queue_capacity) :
    BookInv (TickBasedOrderBook.make spec) :=
  ⟨hcap, sideInv_fresh (numLevels spec), sideInv_fresh (numLevels spec)⟩

/-- The book states reachable from a fresh `TickBasedOrderBook` (built over
    `ContractSpec::new`, whose asserts are the three hypotheses of `base`)
    by any sequence of `match_order` and `cancel_order` calls. -/
inductive Reachable : TickBasedOrderBook → Prop where
  | base (symbol : String) (tick_size min_price max_price : Nat)
      (ht : 0 < tick_size) (hmm : min_price < max_price)
      (hdiv : (max_price - min_price) % tick_size = 0) :
      Reachable (TickBasedOrderBook.make
        (ContractSpec.make symbol tick_size min_price max_price))
  | step_match (b : TickBasedOrderBook) (r : NewOrderRequest) :
      Reachable b → Reachable (matchOrder b r).1
  | step_cancel (b : TickBasedOrderBook) (oid : Nat) :
      Reachable b → Reachable (cancelOrder b oid).1

/-- Every reachable book satisfies the occupancy invariant. -/
theorem reachable_bookInv (b : TickBasedOrderBook) (h : Reachable b) :
    BookInv b := by
  induction h with
  | base s t mn mx ht hmm hdiv =>
    exact bookInv_make _ (by show 0 < 2048; decide)
  | step_match b r hr ih => exact matchOrder_bookInv b r ih
  | step_cancel b oid hr ih => exact cancelOrder_bookInv b oid ih

/-- C9 (amended): for every book state reachable from a fresh
    `TickBasedOrderBook` by any sequence of `match_order` and
    `cancel_order` calls and for every index `i`, the level queue at `i`
    is nonempty (`bids[i]` holds a queue with `len > 0`) if and only if
    the side's bitmap bit at `i` is 1, and the same for asks.  (The
    original claim's further equivalence with `bids[i].is_some()` fails:
    `cancel_order` clears the bit of an emptied level but leaves the slot
    `Some` of an empty queue - see the counterexample.) -/
theorem c9_occupancy_amended (b : TickBasedOrderBook) (h : Reachable b) :
    (∀ i, levelLive b.bid_levels i = b.bid_bitmap.get i) ∧
    (∀ i, levelLive b.ask_levels i = b.ask_bitmap.get i) :=
  ⟨(reachable_bookInv b h).2.1.2.2.2.2, (reachable_bookInv b h).2.2.2.2.2.2⟩

/-- Witness for C9 (amended) at the very state of the counterexample: the
    standard book after resting one bid and cancelling it. -/
theorem c9_amended_witness :
    (∀ i, levelLive (cancelOrder oneBidBook 1).1.bid_levels i
        = (cancelOrder oneBidBook 1).1.bid_bitmap.get i) ∧
    (∀ i, levelLive (cancelOrder oneBidBook 1).1.ask_levels i
        = (cancelOrder oneBidBook 1).1.ask_bitmap.get i) :=
  c9_occupancy_amended _
    (Reachable.step_cancel _ 1
      (Reachable.step_match _ ⟨1, "TEST", OrderType.Buy, 1500, 100⟩
        (Reachable.base "TEST" 10 1000 2000 (by decide) (by decide)
          (by decide))))
